import Mathlib

/- Verification of `quantecon/markov/approximation.py`.

   The file shallowly embeds the source module's four operations —
   `rouwenhorst`, `tauchen` (with `std_norm_cdf` and `_fill_tauchen`),
   `cartesian_product` and `discrete_var` (with `_run_sim`) — and proves
   the behavioural claims made about them.

   Modelling conventions:
   * Python/NumPy floats are modelled by real numbers; Python float
     division (which raises `ZeroDivisionError` on a zero denominator) and
     `math.sqrt` (which raises `ValueError` on negative input) are modelled
     as `Except`-valued primitives.  `np.sqrt` on a scalar never raises; its
     NaN result on negative input is modelled by the junk value
     `Real.sqrt x = 0`.
   * Matrices sized `n × n` are total functions `ℤ → ℤ → ℝ` (or
     `ℕ → ℕ → ℝ`) vanishing outside the index square, mirroring the
     zero-padded placements used by the source.
   * The legacy NumPy global random generator is modelled as a
     process-wide state `(last seed, number of draws consumed)` threaded
     through the simulation; the external standard-normal generator is an
     abstract parameter `randn : seed → draw index → vector`.
   * The external collaborators (`solve_discrete_lyapunov`,
     `scipy.linalg.sqrtm`) are abstract function parameters. -/

namespace Approximation

/-- Python exception kinds raised by the numeric primitives that the source calls. -/
inductive PyErr where
  | zeroDivisionError : PyErr
  | valueError : PyErr
deriving DecidableEq

/-- Python float division `a / b`: raises `ZeroDivisionError` when `b = 0`. -/
noncomputable def pyDiv (a b : ℝ) : Except PyErr ℝ :=
  if b = 0 then .error .zeroDivisionError else .ok (a / b)

/-- `math.sqrt x`: raises `ValueError` ("math domain error") for `x < 0`. -/
noncomputable def mathSqrt (x : ℝ) : Except PyErr ℝ :=
  if x < 0 then .error .valueError else .ok (Real.sqrt x)

/-- `np.sqrt` on a scalar: never raises; the NaN produced on negative input is
modelled by the junk value `Real.sqrt x = 0`. -/
noncomputable def npSqrt (x : ℝ) : ℝ := Real.sqrt x

/-- Modelled from the spec: the Markov chain container (spec section 6) is an external
collaborator that "accepts a transition matrix and a state-space array/sequence and
exposes no further obligations from this core"; the class itself
(`quantecon.markov.core.MarkovChain`) is not part of the source under `src/`, so it is
embedded as a plain pairing with no validation. -/
structure MarkovChain (ι : Type) where
  P : ι → ι → ℝ
  state_values : ι → ℝ

/-- `np.linspace a b n` (evenly spaced, both endpoints included), as a total function on
ℕ: point `i` is `a + i * (b - a) / (n - 1)`. -/
noncomputable def linspace (a b : ℝ) (n : ℕ) (i : ℕ) : ℝ :=
  a + i * ((b - a) / ((n : ℝ) - 1))

/-- `np.linspace` with ℤ-valued index (junk outside `[0, n)`), used where the matrix it
pairs with is ℤ-indexed. -/
noncomputable def linspaceZ (a b : ℝ) (n : ℕ) (i : ℤ) : ℝ :=
  a + i * ((b - a) / ((n : ℝ) - 1))

/-- The `n = 2` base case of `row_build_mat`: `θ₂ = [[p, 1-p], [1-q, q]]`, as a total
function vanishing outside `[0,2)²`. -/
noncomputable def rbBase (p q : ℝ) : ℤ → ℤ → ℝ := fun i j =>
  if i = 0 ∧ j = 0 then p
  else if i = 0 ∧ j = 1 then 1 - p
  else if i = 1 ∧ j = 0 then 1 - q
  else if i = 1 ∧ j = 1 then q
  else 0

/-- The `n > 2` step of `row_build_mat`: sums the four weighted shifted copies
`p1 = p·M` (top-left), `p2 = (1-p)·M` (shifted one column), `p3 = (1-q)·M` (shifted one
row), `p4 = q·M` (shifted diagonally), then divides the interior rows `1 .. n-2` by 2.
Because `M` (of size `n-1`) vanishes outside `[0, n-1)²`, the slice bounds of the
source's assignments are enforced automatically by the index shifts. -/
noncomputable def rbStep (n : ℕ) (p q : ℝ) (M : ℤ → ℤ → ℝ) : ℤ → ℤ → ℝ := fun i j =>
  (if 1 ≤ i ∧ i ≤ (n : ℤ) - 2 then (1 : ℝ) / 2 else 1) *
    (p * M i j + (1 - p) * M i (j - 1) + (1 - q) * M (i - 1) j + q * M (i - 1) (j - 1))

/-- `rbAux p q k` is the recursively built Rouwenhorst matrix of size `k + 2`. -/
noncomputable def rbAux (p q : ℝ) : ℕ → (ℤ → ℤ → ℝ)
  | 0 => rbBase p q
  | k + 1 => rbStep (k + 3) p q (rbAux p q k)

/-- `row_build_mat n p q` from the source: raises `ValueError` for `n < 2`, otherwise
returns the recursively built size-`n` transition matrix. -/
noncomputable def row_build_mat (n : ℕ) (p q : ℝ) : Except PyErr (ℤ → ℤ → ℝ) :=
  if n < 2 then .error .valueError else .ok (rbAux p q (n - 2))

/-- `rouwenhorst n ybar sigma rho` from the source:
`y_sd = math.sqrt(sigma**2 / (1 - rho**2))` (Python division, then `math.sqrt`),
`p = q = (1 + rho)/2`, `psi = y_sd * np.sqrt(n - 1)`, states
`np.linspace(-psi, psi, n) + ybar/(1 - rho)`, matrix `row_build_mat n p q`. -/
noncomputable def rouwenhorst (n : ℕ) (ybar sigma rho : ℝ) :
    Except PyErr (MarkovChain ℤ) := do
  let y_sd ← (pyDiv (sigma ^ 2) (1 - rho ^ 2)).bind mathSqrt
  let p := (1 + rho) / 2
  let q := p
  let psi := y_sd * Real.sqrt ((n : ℝ) - 1)
  let theta ← row_build_mat n p q
  let shift ← pyDiv ybar (1 - rho)
  pure ⟨theta, fun i => linspaceZ (-psi) psi n i + shift⟩

/-- The complementary error function, `erfc x = (2/√π) ∫_x^∞ exp (-t²) dt`. -/
noncomputable def erfc (x : ℝ) : ℝ :=
  2 / Real.sqrt Real.pi * ∫ t in Set.Ioi x, Real.exp (-t ^ 2)

/-- `std_norm_cdf` from the source: `0.5 * erfc(-x / sqrt(2))`. -/
noncomputable def std_norm_cdf (x : ℝ) : ℝ := 0.5 * erfc (-x / Real.sqrt 2)

/-- `_fill_tauchen` from the source, as a total function vanishing outside `[0,n)²`.
For each source row `i` the loop assigns column `0`, then column `n-1`, then the
interior columns `1 .. n-2`; the `j = n-1` test comes first here because when the two
coincide (`n = 1`) the `n-1` assignment is the one executed last. -/
noncomputable def fill_tauchen (x : ℕ → ℝ) (n : ℕ) (rho sigma half_step : ℝ) :
    ℕ → ℕ → ℝ := fun i j =>
  if n ≤ i ∨ n ≤ j then 0
  else if j = n - 1 then 1 - std_norm_cdf ((x (n - 1) - rho * x i - half_step) / sigma)
  else if j = 0 then std_norm_cdf ((x 0 - rho * x i + half_step) / sigma)
  else
    std_norm_cdf ((x j - rho * x i + half_step) / sigma) -
      std_norm_cdf ((x j - rho * x i - half_step) / sigma)

/-- `tauchen rho sigma_u b m n` from the source:
`std_y = np.sqrt(sigma_u**2 / (1 - rho**2))` (Python division, then the non-raising
`np.sqrt`), grid `np.linspace(-m*std_y, m*std_y, n)`, `half_step = 0.5*(x_max-x_min)/(n-1)`
(Python division), matrix `_fill_tauchen`, states shifted by `mu = b/(1 - rho)`. -/
noncomputable def tauchen (rho sigma_u b m : ℝ) (n : ℕ) :
    Except PyErr (MarkovChain ℕ) := do
  let v ← pyDiv (sigma_u ^ 2) (1 - rho ^ 2)
  let std_y := npSqrt v
  let x_max := m * std_y
  let x_min := -x_max
  let x := linspace x_min x_max n
  let step ← pyDiv (x_max - x_min) ((n : ℝ) - 1)
  let half_step := 0.5 * step
  let P := fill_tauchen x n rho sigma_u half_step
  let mu ← pyDiv b (1 - rho)
  pure ⟨P, fun i => x i + mu⟩

/-- `np.tile(l, [k, 1])` followed by `np.ravel`: `k` concatenated copies of `l`. -/
def tileL {α : Type} : ℕ → List α → List α
  | 0, _ => []
  | k + 1, l => l ++ tileL k l

/-- The row-major branch of `cartesian_product`:
`np.reshape(np.stack(np.meshgrid(*arrays, indexing='ij'), axis=-1), (-1, m))`.
The stacked tensor has entry `V_i[k_i]` at multi-index `(k_0, …, k_{m-1}, i)` and the
C-order reshape enumerates multi-indices with the last dimension varying fastest, i.e.
dimension 0 outermost — which is exactly this recursive enumeration. -/
def cartRM {α : Type} : List (List α) → List (List α)
  | [] => [[]]
  | v :: V => v.flatMap (fun a => (cartRM V).map (fun s => a :: s))

/-- Column `i` of the column-major branch of `cartesian_product`:
for `i = 0`, `np.ravel(np.tile(V[0], [prod gs[1:], 1]))`;
for `i > 0`, `np.ravel(np.tile(np.sort(np.ravel(np.tile(V[i], [prod gs[:i], 1]))), [prod gs[i+1:], 1]))`.
`np.sort` is an ascending comparison sort, modelled by `List.mergeSort`. -/
def colOf {α : Type} [LinearOrder α] (V : List (List α)) (i : ℕ) : List α :=
  let gs := V.map List.length
  let pf := (gs.take i).prod
  let qf := (gs.drop (i + 1)).prod
  if i = 0 then tileL qf (V.getD 0 [])
  else tileL qf ((tileL pf (V.getD i [])).mergeSort (fun a b => decide (a ≤ b)))

/-- Row `r` of the matrix whose columns are `cols`: one entry per column `c`, namely
`c[r]` (the singleton `(c.drop r).take 1`, empty only if `c` is shorter than `r`). -/
def rowAt {α : Type} (cols : List (List α)) (r : ℕ) : List α :=
  cols.flatMap (fun c => (c.drop r).take 1)

/-- `cartesian_product(arrays, row_major)` from the source, as the list of rows of the
returned `(total states) × m` matrix. -/
def cartesian_product {α : Type} [LinearOrder α] (arrays : List (List α))
    (row_major : Bool) : List (List α) :=
  if row_major then cartRM arrays
  else
    let n := (arrays.map List.length).prod
    (List.range n).map (rowAt ((List.range arrays.length).map (colOf arrays)))

/-- `np.argmin(d)` over indices `0 .. n-1`: a left fold that replaces the current best
index only on a strictly smaller value, hence returns the first (lowest) index among
the minimizers. -/
def argmin {α : Type} [LinearOrder α] (d : ℕ → α) (n : ℕ) : ℕ :=
  (List.range n).foldl (fun best j => if d j < d best then j else best) 0

/-- `np.sum((v - w)**2)` over the first `m` coordinates. -/
noncomputable def dist2 (m : ℕ) (v w : ℕ → ℝ) : ℝ :=
  ∑ k ∈ Finset.range m, (v k - w k) ^ 2

/-- `A @ v` for an `m × m` matrix given as a total function. -/
noncomputable def mulVecN (m : ℕ) (A : ℕ → ℕ → ℝ) (v : ℕ → ℝ) : ℕ → ℝ :=
  fun i => ∑ k ∈ Finset.range m, A i k * v k

/-- The process-wide legacy NumPy random-generator state, as observed by callers:
the seed it was last seeded with and the number of draws consumed since. -/
abbrev Rng := ℕ × ℕ

/-- `np.random.seed(seed)`: reseeds the process-wide generator, discarding its
previous state. -/
def np_random_seed (seed : ℕ) (_g : Rng) : Rng := (seed, 0)

/-- The mutable state of the `_run_sim` loop: current continuous state `x`, current
quantized index `ind`, count matrix `Pi`, trace `Xvec` (column `c` is `Xvec c`), and
the process-wide random-generator state. -/
structure SimState where
  x : ℕ → ℝ
  ind : ℕ
  Pi : ℕ → ℕ → ℝ
  Xvec : ℕ → ℕ → ℝ
  rng : Rng

/-- One iteration (loop variable `t`) of `_run_sim`: draw, update the continuous state
`x = A @ x0 + C @ draw`, quantize by nearest-neighbour `argmin`, and for `t > burn_in`
count the transition and record the draw in column `t - burn_in` of the trace. -/
noncomputable def runSimStep (m : ℕ) (A C S : ℕ → ℕ → ℝ) (n burn_in : ℕ)
    (randn : ℕ → ℕ → ℕ → ℝ) (t : ℕ) (st : SimState) : SimState :=
  let x : ℕ → ℝ := fun k =>
    mulVecN m A st.x k + mulVecN m C (randn st.rng.1 st.rng.2) k
  let ind_j := argmin (fun j => dist2 m (S j) x) n
  { x := x
    ind := ind_j
    Pi :=
      if burn_in < t then
        fun a b => if a = st.ind ∧ b = ind_j then st.Pi a b + 1 else st.Pi a b
      else st.Pi
    Xvec :=
      if burn_in < t then
        fun c k => if c = t - burn_in then x k else st.Xvec c k
      else st.Xvec
    rng := (st.rng.1, st.rng.2 + 1) }

/-- The state of `_run_sim` after its first `T` iterations.  The initial state has
`x0 = 0`, `ind_i = np.argmin(np.sum(S**2, axis=1))`, zero count matrix, zero trace, and
the generator freshly seeded by `np.random.seed(seed)` from whatever process-wide
state `g0` it previously held. -/
noncomputable def runSimN (m : ℕ) (A C S : ℕ → ℕ → ℝ) (n burn_in : ℕ)
    (randn : ℕ → ℕ → ℕ → ℝ) (seed : ℕ) (g0 : Rng) : ℕ → SimState
  | 0 =>
    { x := fun _ => 0
      ind := argmin (fun j => dist2 m (S j) (fun _ => 0)) n
      Pi := fun _ _ => 0
      Xvec := fun _ _ => 0
      rng := np_random_seed seed g0 }
  | T + 1 => runSimStep m A C S n burn_in randn T (runSimN m A C S n burn_in randn seed g0 T)

/-- `_run_sim` from the source: the loop runs for `t in range(sim_length + burn_in)`. -/
noncomputable def run_sim (m : ℕ) (A C S : ℕ → ℕ → ℝ) (n sim_length burn_in : ℕ)
    (seed : ℕ) (randn : ℕ → ℕ → ℕ → ℝ) (g0 : Rng) : SimState :=
  runSimN m A C S n burn_in randn seed g0 (sim_length + burn_in)

/-- Stage 1 of `discrete_var`: the per-dimension grids, built by `np.linspace` over
`±(std_devs · σ_k)` where `σ_k = sqrt(Σ_kk)` and `Σ = lyap A Omega` is the stationary
covariance obtained from the external Lyapunov solver. -/
noncomputable def dvGrids (m : ℕ)
    (lyap : (ℕ → ℕ → ℝ) → (ℕ → ℕ → ℝ) → (ℕ → ℕ → ℝ))
    (A Omega : ℕ → ℕ → ℝ) (grid_sizes : List ℕ) (std_devs : ℝ) : List (List ℝ) :=
  (List.range m).map fun i =>
    (List.range (grid_sizes.getD i 0)).map fun k =>
      linspace (-(std_devs * Real.sqrt (lyap A Omega i i)))
        (std_devs * Real.sqrt (lyap A Omega i i)) (grid_sizes.getD i 0) k

/-- Stage 2 of `discrete_var`: the discrete state space `S`, the Cartesian product of
the grids, read entrywise (`S j k` is coordinate `k` of state `j`). -/
noncomputable def dvStateSpace (m : ℕ)
    (lyap : (ℕ → ℕ → ℝ) → (ℕ → ℕ → ℝ) → (ℕ → ℕ → ℝ))
    (A Omega : ℕ → ℕ → ℝ) (grid_sizes : List ℕ) (std_devs : ℝ)
    (row_major : Bool) : ℕ → ℕ → ℝ := fun j k =>
  ((cartesian_product (dvGrids m lyap A Omega grid_sizes std_devs) row_major).getD
    j []).getD k 0

/-- Stage 3 of `discrete_var`: the simulation `_run_sim(A, C, Pi, Xvec, S, ...)` with
`C = sqrtm(Omega)`. -/
noncomputable def dvSim (m : ℕ) (A Omega : ℕ → ℕ → ℝ) (grid_sizes : List ℕ)
    (std_devs : ℝ) (seed sim_length burn_in : ℕ) (row_major : Bool)
    (lyap : (ℕ → ℕ → ℝ) → (ℕ → ℕ → ℝ) → (ℕ → ℕ → ℝ))
    (sqrtm : (ℕ → ℕ → ℝ) → (ℕ → ℕ → ℝ))
    (randn : ℕ → ℕ → ℕ → ℝ) (g0 : Rng) : SimState :=
  run_sim m A (sqrtm Omega)
    (dvStateSpace m lyap A Omega grid_sizes std_devs row_major)
    grid_sizes.prod sim_length burn_in seed randn g0

/-- Stage 4 of `discrete_var`: `np.where(np.sum(Pi, axis=0) > 0)` — the surviving state
indices, those whose column sum in the raw count matrix is positive. -/
noncomputable def dvSurv (m : ℕ) (A Omega : ℕ → ℕ → ℝ) (grid_sizes : List ℕ)
    (std_devs : ℝ) (seed sim_length burn_in : ℕ) (row_major : Bool)
    (lyap : (ℕ → ℕ → ℝ) → (ℕ → ℕ → ℝ) → (ℕ → ℕ → ℝ))
    (sqrtm : (ℕ → ℕ → ℝ) → (ℕ → ℕ → ℝ))
    (randn : ℕ → ℕ → ℕ → ℝ) (g0 : Rng) : List ℕ :=
  (List.range grid_sizes.prod).filter fun j =>
    decide (0 < ∑ i ∈ Finset.range grid_sizes.prod,
      (dvSim m A Omega grid_sizes std_devs seed sim_length burn_in row_major
        lyap sqrtm randn g0).Pi i j)

/-- `discrete_var` from the source.  `m = len(A)` is passed explicitly because matrices
are embedded as total functions; `lyap` and `sqrtm` are the external collaborators
`qme.solve_discrete_lyapunov` and `sp.linalg.sqrtm`; `randn` is the external
standard-normal draw sequence; `g0` is the process-wide generator state the call finds.
After the simulation, rows/columns of the count matrix and rows of `S` are pruned to
the surviving indices and the pruned count matrix is row-normalized.
The result is `((Pi, S, Xvec), final generator state)`; the source's `return_sim` flag
only selects whether `Xvec` is included in the returned Python tuple. -/
noncomputable def discrete_var (m : ℕ) (A Omega : ℕ → ℕ → ℝ) (grid_sizes : List ℕ)
    (std_devs : ℝ) (seed sim_length burn_in : ℕ) (row_major : Bool)
    (lyap : (ℕ → ℕ → ℝ) → (ℕ → ℕ → ℝ) → (ℕ → ℕ → ℝ))
    (sqrtm : (ℕ → ℕ → ℝ) → (ℕ → ℕ → ℝ))
    (randn : ℕ → ℕ → ℕ → ℝ) (g0 : Rng) :
    ((ℕ → ℕ → ℝ) × (ℕ → ℕ → ℝ) × (ℕ → ℕ → ℝ)) × Rng :=
  let n := grid_sizes.prod
  let S := dvStateSpace m lyap A Omega grid_sizes std_devs row_major
  let st := dvSim m A Omega grid_sizes std_devs seed sim_length burn_in row_major
    lyap sqrtm randn g0
  let surv := dvSurv m A Omega grid_sizes std_devs seed sim_length burn_in row_major
    lyap sqrtm randn g0
  let PiP := fun a b => st.Pi (surv.getD a n) (surv.getD b n)
  let SP := fun a k => S (surv.getD a n) k
  let rowsum := fun a => ∑ b ∈ Finset.range surv.length, PiP a b
  let PiN := fun a b => PiP a b / rowsum a
  ((PiN, SP, st.Xvec), st.rng)

/-- Concrete collaborator instances used at the explicit inputs of the
counterexamples and witnesses below: the all-zero matrix. -/
noncomputable def zeroM : ℕ → ℕ → ℝ := fun _ _ => 0

/-- The all-one matrix (used as a 1×1 identity and as a stationary covariance whose
diagonal is 1). -/
noncomputable def oneM : ℕ → ℕ → ℝ := fun _ _ => 1

/-- A Lyapunov-solver instance returning the all-one matrix. -/
noncomputable def lyapOne : (ℕ → ℕ → ℝ) → (ℕ → ℕ → ℝ) → (ℕ → ℕ → ℝ) := fun _ _ => oneM

/-- A matrix-square-root instance returning the all-one matrix. -/
noncomputable def sqrtmOne : (ℕ → ℕ → ℝ) → (ℕ → ℕ → ℝ) := fun _ => oneM

/-- A draw sequence whose every draw is the constant vector 2. -/
noncomputable def randnConst2 : ℕ → ℕ → ℕ → ℝ := fun _ _ _ => 2

/-- A draw sequence stepping through the vectors −2, 0, 2, 2, 2, …. -/
noncomputable def randnSteps : ℕ → ℕ → ℕ → ℝ := fun _ t _ =>
  if t = 0 then -2 else if t = 1 then 0 else 2

/-- Proof-side (spec section 4.4): the spec's standard normal CDF,
`Φ(x) = 0.5 · erfc(−x/√2)`. -/
noncomputable def Phi_spec (x : ℝ) : ℝ := 0.5 * erfc (-x / Real.sqrt 2)

/-- Proof-side (spec section 4.4): the spec's closed form for the Tauchen transition
matrix entry `P[i,j]`, written exactly as the spec states it: leftmost column,
rightmost column, interior columns with `z = x[j] − ρ·x[i]`. -/
noncomputable def tauchen_entry_spec (x : ℕ → ℝ) (n : ℕ) (rho sigma half_step : ℝ)
    (i j : ℕ) : ℝ :=
  if j = 0 then Phi_spec ((x 0 - rho * x i + half_step) / sigma)
  else if j = n - 1 then
    1 - Phi_spec ((x (n - 1) - rho * x i - half_step) / sigma)
  else
    Phi_spec ((x j - rho * x i + half_step) / sigma) -
      Phi_spec ((x j - rho * x i - half_step) / sigma)

/-- Proof-side: product of the per-dimension grid sizes. -/
def prodLen {α : Type} (V : List (List α)) : ℕ := (V.map List.length).prod

/-- Proof-side: each element of `l` repeated `k` times in place — the sorted form of
`tileL k l` for a sorted `l`. -/
def repeatEach {α : Type} (k : ℕ) : List α → List α
  | [] => []
  | a :: l => List.replicate k a ++ repeatEach k l

/-- Proof-side: the decoded row of the row-major Cartesian product at row index `r`
(first dimension outermost, last dimension fastest); `d` is a dummy default. -/
def decRM {α : Type} (d : α) : List (List α) → ℕ → List α
  | [], _ => []
  | v :: V, r => v.getD (r / prodLen V) d :: decRM d V (r % prodLen V)

/-- Proof-side: the decoded row of the column-major Cartesian product at row index `r`
(dimension 0 varies fastest); `d` is a dummy default. -/
def decCM {α : Type} (d : α) : List (List α) → ℕ → List α
  | [], _ => []
  | v :: V, r => v.getD (r % v.length) d :: decCM d V (r / v.length)

/-- Proof-side: the row index in row-major order holding the same combination that the
column-major order holds at row `r`. -/
def cmIx {α : Type} : List (List α) → ℕ → ℕ
  | [], _ => 0
  | v :: V, r => r % v.length * prodLen V + cmIx V (r / v.length)

/-- Proof-side: the continuous-state trajectory of `_run_sim`:
`xs 0 = 0`, `xs (t+1) = A @ xs t + C @ randn seed t`. -/
noncomputable def xsTraj (m : ℕ) (A C : ℕ → ℕ → ℝ) (randn : ℕ → ℕ → ℕ → ℝ)
    (seed : ℕ) : ℕ → ℕ → ℝ
  | 0 => fun _ => 0
  | t + 1 => fun k =>
    mulVecN m A (xsTraj m A C randn seed t) k + mulVecN m C (randn seed t) k

/-- Proof-side: the nearest-neighbour quantizer used at every simulation step:
the `np.argmin` of the squared distances to the rows of `S`. -/
noncomputable def quantIx (m : ℕ) (S : ℕ → ℕ → ℝ) (n : ℕ) (x : ℕ → ℝ) : ℕ :=
  argmin (fun j => dist2 m (S j) x) n

lemma argmin_succ {α : Type} [LinearOrder α] (d : ℕ → α) (n : ℕ) :
    argmin d (n + 1) = if d n < d (argmin d n) then n else argmin d n := by
  unfold argmin
  rw [List.range_succ, List.foldl_append]
  rfl

lemma argmin_lt {α : Type} [LinearOrder α] (d : ℕ → α) (n : ℕ) (hn : 0 < n) :
    argmin d n < n := by
  induction n with
  | zero => omega
  | succ n ih =>
    rw [argmin_succ]
    split_ifs with h
    · omega
    · rcases Nat.eq_zero_or_pos n with h0 | h0
      · subst h0
        simp [argmin]
      · exact Nat.lt_succ_of_lt (ih h0)

lemma argmin_le {α : Type} [LinearOrder α] (d : ℕ → α) (n : ℕ) : argmin d n ≤ n := by
  rcases Nat.eq_zero_or_pos n with h0 | h0
  · subst h0; simp [argmin]
  · exact le_of_lt (argmin_lt d n h0)

lemma argmin_is_min {α : Type} [LinearOrder α] (d : ℕ → α) (n : ℕ) :
    ∀ j, j < n → d (argmin d n) ≤ d j := by
  induction n with
  | zero => intro j hj; omega
  | succ n ih =>
    intro j hj
    rw [argmin_succ]
    split_ifs with h
    · rcases Nat.lt_succ_iff_lt_or_eq.1 hj with hj' | hj'
      · exact le_of_lt (lt_of_lt_of_le h (ih j hj'))
      · subst hj'; exact le_rfl
    · rcases Nat.lt_succ_iff_lt_or_eq.1 hj with hj' | hj'
      · exact ih j hj'
      · subst hj'; exact not_lt.1 h

lemma argmin_first {α : Type} [LinearOrder α] (d : ℕ → α) (n : ℕ) :
    ∀ j, j < n → d j ≤ d (argmin d n) → argmin d n ≤ j := by
  induction n with
  | zero => intro j hj; omega
  | succ n ih =>
    intro j hj
    rw [argmin_succ]
    split_ifs with h
    · intro hdj
      rcases Nat.lt_succ_iff_lt_or_eq.1 hj with hj' | hj'
      · have hlt : d n < d j := lt_of_lt_of_le h (argmin_is_min d n j hj')
        exact absurd hdj (not_le.2 hlt)
      · omega
    · intro hdj
      rcases Nat.lt_succ_iff_lt_or_eq.1 hj with hj' | hj'
      · exact ih j hj' hdj
      · exact le_trans (argmin_le d n) hj'.ge

lemma runSimN_rng (m : ℕ) (A C S : ℕ → ℕ → ℝ) (n burn_in : ℕ)
    (randn : ℕ → ℕ → ℕ → ℝ) (seed : ℕ) (g0 : Rng) (T : ℕ) :
    (runSimN m A C S n burn_in randn seed g0 T).rng = (seed, T) := by
  induction T with
  | zero => rfl
  | succ T ih =>
    show (runSimStep m A C S n burn_in randn T
      (runSimN m A C S n burn_in randn seed g0 T)).rng = (seed, T + 1)
    rw [runSimStep, ih]

lemma runSimN_x (m : ℕ) (A C S : ℕ → ℕ → ℝ) (n burn_in : ℕ)
    (randn : ℕ → ℕ → ℕ → ℝ) (seed : ℕ) (g0 : Rng) (T : ℕ) :
    (runSimN m A C S n burn_in randn seed g0 T).x = xsTraj m A C randn seed T := by
  induction T with
  | zero => rfl
  | succ T ih =>
    show (runSimStep m A C S n burn_in randn T
      (runSimN m A C S n burn_in randn seed g0 T)).x = xsTraj m A C randn seed (T + 1)
    rw [runSimStep]
    simp only [runSimN_rng, ih]
    rfl

lemma runSimN_ind (m : ℕ) (A C S : ℕ → ℕ → ℝ) (n burn_in : ℕ)
    (randn : ℕ → ℕ → ℕ → ℝ) (seed : ℕ) (g0 : Rng) (T : ℕ) :
    (runSimN m A C S n burn_in randn seed g0 T).ind =
      quantIx m S n (xsTraj m A C randn seed T) := by
  induction T with
  | zero => rfl
  | succ T _ =>
    show (runSimStep m A C S n burn_in randn T
      (runSimN m A C S n burn_in randn seed g0 T)).ind = _
    rw [runSimStep]
    simp only [runSimN_rng, runSimN_x]
    rfl

lemma runSimN_Pi (m : ℕ) (A C S : ℕ → ℕ → ℝ) (n burn_in : ℕ)
    (randn : ℕ → ℕ → ℕ → ℝ) (seed : ℕ) (g0 : Rng) (T : ℕ) (a b : ℕ) :
    (runSimN m A C S n burn_in randn seed g0 T).Pi a b =
      ∑ t ∈ Finset.range T,
        (if burn_in < t ∧ quantIx m S n (xsTraj m A C randn seed t) = a ∧
            quantIx m S n (xsTraj m A C randn seed (t + 1)) = b then (1 : ℝ) else 0) := by
  induction T with
  | zero => simp [runSimN]
  | succ T ih =>
    rw [Finset.sum_range_succ, ← ih]
    have hq : argmin (fun j => dist2 m (S j)
        (fun k => mulVecN m A (xsTraj m A C randn seed T) k +
          mulVecN m C (randn seed T) k)) n =
        quantIx m S n (xsTraj m A C randn seed (T + 1)) := rfl
    show (runSimStep m A C S n burn_in randn T
      (runSimN m A C S n burn_in randn seed g0 T)).Pi a b = _
    rw [runSimStep]
    simp only [runSimN_rng, runSimN_x, runSimN_ind, hq]
    by_cases hT : burn_in < T
    · simp only [hT, if_true, true_and]
      by_cases hab : quantIx m S n (xsTraj m A C randn seed T) = a ∧
          quantIx m S n (xsTraj m A C randn seed (T + 1)) = b
      · have h2 : a = quantIx m S n (xsTraj m A C randn seed T) ∧
            b = quantIx m S n (xsTraj m A C randn seed (T + 1)) := ⟨hab.1.symm, hab.2.symm⟩
        rw [if_pos h2, if_pos hab]
      · have h2 : ¬(a = quantIx m S n (xsTraj m A C randn seed T) ∧
            b = quantIx m S n (xsTraj m A C randn seed (T + 1))) := by
          intro hc; exact hab ⟨hc.1.symm, hc.2.symm⟩
        rw [if_neg h2, if_neg hab, add_zero]
    · simp only [hT, if_false, false_and, add_zero]

lemma runSimN_Xvec (m : ℕ) (A C S : ℕ → ℕ → ℝ) (n burn_in : ℕ)
    (randn : ℕ → ℕ → ℕ → ℝ) (seed : ℕ) (g0 : Rng) (T : ℕ) (c k : ℕ) :
    (runSimN m A C S n burn_in randn seed g0 T).Xvec c k =
      if 1 ≤ c ∧ burn_in + c < T then xsTraj m A C randn seed (burn_in + c + 1) k
      else 0 := by
  induction T with
  | zero =>
    have : ¬(1 ≤ c ∧ burn_in + c < 0) := by omega
    rw [if_neg this]; rfl
  | succ T ih =>
    show (runSimStep m A C S n burn_in randn T
      (runSimN m A C S n burn_in randn seed g0 T)).Xvec c k = _
    rw [runSimStep]
    simp only [runSimN_rng, runSimN_x]
    by_cases hT : burn_in < T
    · simp only [hT, if_true]
      by_cases hc : c = T - burn_in
      · have h1 : 1 ≤ c ∧ burn_in + c < T + 1 := by omega
        have h2 : burn_in + c + 1 = T + 1 := by omega
        rw [if_pos hc, if_pos h1, h2]
        rfl
      · have h1 : (1 ≤ c ∧ burn_in + c < T + 1) ↔ (1 ≤ c ∧ burn_in + c < T) := by omega
        rw [if_neg hc, ih, if_congr h1 rfl rfl]
    · simp only [hT, if_false]
      have h1 : ¬(1 ≤ c ∧ burn_in + c < T + 1) := by omega
      have h2 : ¬(1 ≤ c ∧ burn_in + c < T) := by omega
      rw [ih, if_neg h1, if_neg h2]

lemma rbAux_eq_zero (p q : ℝ) (k : ℕ) (i j : ℤ)
    (h : i < 0 ∨ (k : ℤ) + 2 ≤ i ∨ j < 0 ∨ (k : ℤ) + 2 ≤ j) :
    rbAux p q k i j = 0 := by
  induction k generalizing i j with
  | zero =>
    simp only [rbAux, rbBase]
    split_ifs <;> first | rfl | (exfalso; omega)
  | succ k ih =>
    show rbStep (k + 3) p q (rbAux p q k) i j = 0
    simp only [rbStep]
    rw [ih i j (by omega), ih i (j - 1) (by omega), ih (i - 1) j (by omega),
      ih (i - 1) (j - 1) (by omega)]
    ring

lemma rbAux_rowsum (p q : ℝ) (k : ℕ) (i : ℤ) (hi0 : 0 ≤ i) (hi : i < (k : ℤ) + 2) :
    ∑ j ∈ Finset.range (k + 2), rbAux p q k i (j : ℤ) = 1 := by
  induction k generalizing i with
  | zero =>
    interval_cases i <;> simp [rbAux, rbBase, Finset.sum_range_succ]
  | succ k ih =>
    have hrowval : ∀ a : ℤ, ∑ j ∈ Finset.range (k + 2), rbAux p q k a (j : ℤ) =
        if 0 ≤ a ∧ a < (k : ℤ) + 2 then (1 : ℝ) else 0 := by
      intro a
      split_ifs with h
      · exact ih a h.1 h.2
      · exact Finset.sum_eq_zero fun j _ => rbAux_eq_zero p q k a (j : ℤ) (by omega)
    have hrow3 : ∀ a : ℤ, ∑ j ∈ Finset.range (k + 3), rbAux p q k a (j : ℤ) =
        ∑ j ∈ Finset.range (k + 2), rbAux p q k a (j : ℤ) := by
      intro a
      rw [Finset.sum_range_succ, rbAux_eq_zero p q k a ((k + 2 : ℕ) : ℤ) (by omega),
        add_zero]
    have hshift : ∀ a : ℤ, ∑ j ∈ Finset.range (k + 3), rbAux p q k a ((j : ℤ) - 1) =
        ∑ j ∈ Finset.range (k + 2), rbAux p q k a (j : ℤ) := by
      intro a
      rw [Finset.sum_range_succ']
      have he : ∀ j : ℕ, ((j + 1 : ℕ) : ℤ) - 1 = (j : ℤ) := by
        intro j; push_cast; ring
      rw [Finset.sum_congr rfl fun j _ => by rw [he j]]
      rw [show ((0 : ℕ) : ℤ) - 1 = (-1 : ℤ) by norm_num,
        rbAux_eq_zero p q k a (-1) (by omega), add_zero]
    show ∑ j ∈ Finset.range (k + 1 + 2), rbStep (k + 3) p q (rbAux p q k) i (j : ℤ) = 1
    simp only [rbStep]
    rw [← Finset.mul_sum]
    have hsplit : ∑ j ∈ Finset.range (k + 1 + 2),
        (p * rbAux p q k i (j : ℤ) + (1 - p) * rbAux p q k i ((j : ℤ) - 1) +
          (1 - q) * rbAux p q k (i - 1) (j : ℤ) +
          q * rbAux p q k (i - 1) ((j : ℤ) - 1)) =
        p * (∑ j ∈ Finset.range (k + 3), rbAux p q k i (j : ℤ)) +
          (1 - p) * (∑ j ∈ Finset.range (k + 3), rbAux p q k i ((j : ℤ) - 1)) +
          (1 - q) * (∑ j ∈ Finset.range (k + 3), rbAux p q k (i - 1) (j : ℤ)) +
          q * (∑ j ∈ Finset.range (k + 3), rbAux p q k (i - 1) ((j : ℤ) - 1)) := by
      rw [Finset.mul_sum, Finset.mul_sum, Finset.mul_sum, Finset.mul_sum,
        ← Finset.sum_add_distrib, ← Finset.sum_add_distrib, ← Finset.sum_add_distrib]
    rw [hsplit, hshift i, hshift (i - 1), hrow3 i, hrow3 (i - 1), hrowval i,
      hrowval (i - 1)]
    rcases show i = 0 ∨ (1 ≤ i ∧ i ≤ (k : ℤ) + 1) ∨ i = (k : ℤ) + 2 by omega with
      h0 | hmid | hend
    · rw [if_neg (by omega), if_pos (by omega), if_neg (by omega)]
      ring
    · rw [if_pos (by push_cast; omega), if_pos (by omega), if_pos (by omega)]
      ring
    · rw [if_neg (by push_cast; omega), if_neg (by omega), if_pos (by omega)]
      ring

lemma rbAux_nonneg (p q : ℝ) (hp0 : 0 ≤ p) (hp1 : p ≤ 1) (hq0 : 0 ≤ q) (hq1 : q ≤ 1)
    (k : ℕ) (i j : ℤ) : 0 ≤ rbAux p q k i j := by
  induction k generalizing i j with
  | zero =>
    simp only [rbAux, rbBase]
    split_ifs <;> linarith
  | succ k ih =>
    show 0 ≤ rbStep (k + 3) p q (rbAux p q k) i j
    simp only [rbStep]
    have a1 : 0 ≤ p * rbAux p q k i j := mul_nonneg hp0 (ih i j)
    have a2 : 0 ≤ (1 - p) * rbAux p q k i (j - 1) :=
      mul_nonneg (by linarith) (ih i (j - 1))
    have a3 : 0 ≤ (1 - q) * rbAux p q k (i - 1) j :=
      mul_nonneg (by linarith) (ih (i - 1) j)
    have a4 : 0 ≤ q * rbAux p q k (i - 1) (j - 1) := mul_nonneg hq0 (ih (i - 1) (j - 1))
    split_ifs <;> linarith

lemma rbAux_le_one (p q : ℝ) (hp0 : 0 ≤ p) (hp1 : p ≤ 1) (hq0 : 0 ≤ q) (hq1 : q ≤ 1)
    (k : ℕ) (i j : ℤ) : rbAux p q k i j ≤ 1 := by
  by_cases h : 0 ≤ i ∧ i < (k : ℤ) + 2 ∧ 0 ≤ j ∧ j < (k : ℤ) + 2
  · obtain ⟨hi0, hi, hj0, hj⟩ := h
    have hjn : j.toNat < k + 2 := by omega
    have hcast : ((j.toNat : ℕ) : ℤ) = j := Int.toNat_of_nonneg hj0
    calc rbAux p q k i j = rbAux p q k i ((j.toNat : ℕ) : ℤ) := by rw [hcast]
      _ ≤ ∑ jj ∈ Finset.range (k + 2), rbAux p q k i (jj : ℤ) := by
        have hgen : ∀ f : ℕ → ℝ, (∀ x ∈ Finset.range (k + 2), 0 ≤ f x) →
            ∀ a ∈ Finset.range (k + 2), f a ≤ ∑ x ∈ Finset.range (k + 2), f x :=
          fun f hf a ha => Finset.single_le_sum hf ha
        exact hgen (fun jj => rbAux p q k i (jj : ℤ))
          (fun x _ => rbAux_nonneg p q hp0 hp1 hq0 hq1 k i (x : ℤ)) j.toNat
          (Finset.mem_range.2 hjn)
      _ = 1 := rbAux_rowsum p q k i hi0 hi
  · rw [rbAux_eq_zero p q k i j (by omega)]
    norm_num

lemma rbAux_symm (p : ℝ) (k : ℕ) (i j : ℤ) :
    rbAux p p k i j = rbAux p p k ((k : ℤ) + 1 - i) ((k : ℤ) + 1 - j) := by
  induction k generalizing i j with
  | zero =>
    simp only [rbAux, rbBase]
    split_ifs <;> first | rfl | (exfalso; omega)
  | succ k ih =>
    show rbStep (k + 3) p p (rbAux p p k) i j =
      rbStep (k + 3) p p (rbAux p p k) (((k + 1 : ℕ) : ℤ) + 1 - i)
        (((k + 1 : ℕ) : ℤ) + 1 - j)
    simp only [rbStep]
    have e1 : rbAux p p k (((k + 1 : ℕ) : ℤ) + 1 - i) (((k + 1 : ℕ) : ℤ) + 1 - j) =
        rbAux p p k (i - 1) (j - 1) := by
      rw [ih (((k + 1 : ℕ) : ℤ) + 1 - i) (((k + 1 : ℕ) : ℤ) + 1 - j)]
      have h1 : (k : ℤ) + 1 - (((k + 1 : ℕ) : ℤ) + 1 - i) = i - 1 := by push_cast; ring
      have h2 : (k : ℤ) + 1 - (((k + 1 : ℕ) : ℤ) + 1 - j) = j - 1 := by push_cast; ring
      rw [h1, h2]
    have e2 : rbAux p p k (((k + 1 : ℕ) : ℤ) + 1 - i) (((k + 1 : ℕ) : ℤ) + 1 - j - 1) =
        rbAux p p k (i - 1) j := by
      rw [ih (((k + 1 : ℕ) : ℤ) + 1 - i) (((k + 1 : ℕ) : ℤ) + 1 - j - 1)]
      have h1 : (k : ℤ) + 1 - (((k + 1 : ℕ) : ℤ) + 1 - i) = i - 1 := by push_cast; ring
      have h2 : (k : ℤ) + 1 - (((k + 1 : ℕ) : ℤ) + 1 - j - 1) = j := by push_cast; ring
      rw [h1, h2]
    have e3 : rbAux p p k (((k + 1 : ℕ) : ℤ) + 1 - i - 1) (((k + 1 : ℕ) : ℤ) + 1 - j) =
        rbAux p p k i (j - 1) := by
      rw [ih (((k + 1 : ℕ) : ℤ) + 1 - i - 1) (((k + 1 : ℕ) : ℤ) + 1 - j)]
      have h1 : (k : ℤ) + 1 - (((k + 1 : ℕ) : ℤ) + 1 - i - 1) = i := by push_cast; ring
      have h2 : (k : ℤ) + 1 - (((k + 1 : ℕ) : ℤ) + 1 - j) = j - 1 := by push_cast; ring
      rw [h1, h2]
    have e4 : rbAux p p k (((k + 1 : ℕ) : ℤ) + 1 - i - 1)
        (((k + 1 : ℕ) : ℤ) + 1 - j - 1) = rbAux p p k i j := by
      rw [ih (((k + 1 : ℕ) : ℤ) + 1 - i - 1) (((k + 1 : ℕ) : ℤ) + 1 - j - 1)]
      have h1 : (k : ℤ) + 1 - (((k + 1 : ℕ) : ℤ) + 1 - i - 1) = i := by push_cast; ring
      have h2 : (k : ℤ) + 1 - (((k + 1 : ℕ) : ℤ) + 1 - j - 1) = j := by push_cast; ring
      rw [h1, h2]
    rw [e1, e2, e3, e4]
    have hsc : (1 ≤ ((k + 1 : ℕ) : ℤ) + 1 - i ∧
        ((k + 1 : ℕ) : ℤ) + 1 - i ≤ ((k + 3 : ℕ) : ℤ) - 2) ↔
        (1 ≤ i ∧ i ≤ ((k + 3 : ℕ) : ℤ) - 2) := by push_cast; omega
    rw [if_congr hsc rfl rfl]
    split_ifs <;> ring

lemma rouwenhorst_ok (n : ℕ) (ybar sigma rho : ℝ) (hn : 2 ≤ n) (hrho : |rho| < 1) :
    rouwenhorst n ybar sigma rho = .ok
      ⟨rbAux ((1 + rho) / 2) ((1 + rho) / 2) (n - 2),
       fun i =>
         linspaceZ (-(Real.sqrt (sigma ^ 2 / (1 - rho ^ 2)) * Real.sqrt ((n : ℝ) - 1)))
           (Real.sqrt (sigma ^ 2 / (1 - rho ^ 2)) * Real.sqrt ((n : ℝ) - 1)) n i +
           ybar / (1 - rho)⟩ := by
  obtain ⟨hr1, hr2⟩ := abs_lt.1 hrho
  have h1 : (1 : ℝ) - rho ^ 2 ≠ 0 := by nlinarith
  have hnn : ¬(sigma ^ 2 / (1 - rho ^ 2) < 0) :=
    not_lt.2 (div_nonneg (sq_nonneg sigma) (by nlinarith))
  have h3 : (1 : ℝ) - rho ≠ 0 := by intro hc; linarith [sub_eq_zero.1 hc]
  have hd1 : pyDiv (sigma ^ 2) (1 - rho ^ 2) = .ok (sigma ^ 2 / (1 - rho ^ 2)) := by
    unfold pyDiv; rw [if_neg h1]
  have hs : mathSqrt (sigma ^ 2 / (1 - rho ^ 2)) =
      .ok (Real.sqrt (sigma ^ 2 / (1 - rho ^ 2))) := by
    unfold mathSqrt; rw [if_neg hnn]
  have hrb : row_build_mat n ((1 + rho) / 2) ((1 + rho) / 2) =
      .ok (rbAux ((1 + rho) / 2) ((1 + rho) / 2) (n - 2)) := by
    unfold row_build_mat; rw [if_neg (by omega)]
  have hd2 : pyDiv ybar (1 - rho) = .ok (ybar / (1 - rho)) := by
    unfold pyDiv; rw [if_neg h3]
  unfold rouwenhorst
  rw [hd1]
  show (mathSqrt (sigma ^ 2 / (1 - rho ^ 2))).bind _ = _
  rw [hs]
  show (row_build_mat n ((1 + rho) / 2) ((1 + rho) / 2)).bind _ = _
  rw [hrb]
  show (pyDiv ybar (1 - rho)).bind _ = _
  rw [hd2]
  rfl

lemma gauss_integrable : MeasureTheory.Integrable (fun t : ℝ => Real.exp (-t ^ 2)) := by
  have h := integrable_exp_neg_mul_sq (show (0 : ℝ) < 1 by norm_num)
  simpa using h

lemma gauss_integral : ∫ t : ℝ, Real.exp (-t ^ 2) = Real.sqrt Real.pi := by
  have h := integral_gaussian 1
  simpa using h

lemma erfc_nonneg (x : ℝ) : 0 ≤ erfc x := by
  unfold erfc
  apply mul_nonneg (by positivity)
  exact MeasureTheory.setIntegral_nonneg measurableSet_Ioi fun t _ => (Real.exp_pos _).le

lemma erfc_le_two (x : ℝ) : erfc x ≤ 2 := by
  unfold erfc
  have hI : (∫ t in Set.Ioi x, Real.exp (-t ^ 2)) ≤ ∫ t : ℝ, Real.exp (-t ^ 2) :=
    MeasureTheory.setIntegral_le_integral gauss_integrable
      (MeasureTheory.ae_of_all _ fun t => (Real.exp_pos _).le)
  have hπ : 0 < Real.sqrt Real.pi := Real.sqrt_pos.2 Real.pi_pos
  calc 2 / Real.sqrt Real.pi * ∫ t in Set.Ioi x, Real.exp (-t ^ 2) ≤
      2 / Real.sqrt Real.pi * Real.sqrt Real.pi := by
        rw [gauss_integral] at hI
        exact mul_le_mul_of_nonneg_left hI (by positivity)
    _ = 2 := div_mul_cancel₀ 2 (ne_of_gt hπ)

lemma erfc_antitone : Antitone erfc := by
  intro a c hac
  unfold erfc
  apply mul_le_mul_of_nonneg_left _ (by positivity)
  apply MeasureTheory.setIntegral_mono_set gauss_integrable.integrableOn
    (MeasureTheory.ae_of_all _ fun t => (Real.exp_pos _).le)
  exact HasSubset.Subset.eventuallyLE (Set.Ioi_subset_Ioi hac)

lemma std_norm_cdf_nonneg (x : ℝ) : 0 ≤ std_norm_cdf x := by
  unfold std_norm_cdf
  linarith [erfc_nonneg (-x / Real.sqrt 2)]

lemma std_norm_cdf_le_one (x : ℝ) : std_norm_cdf x ≤ 1 := by
  unfold std_norm_cdf
  linarith [erfc_le_two (-x / Real.sqrt 2)]

lemma std_norm_cdf_mono : Monotone std_norm_cdf := by
  intro a c hac
  unfold std_norm_cdf
  have h2 : (0 : ℝ) < Real.sqrt 2 := Real.sqrt_pos.2 (by norm_num)
  have hdiv : -c / Real.sqrt 2 ≤ -a / Real.sqrt 2 :=
    (div_le_div_right h2).2 (neg_le_neg hac)
  linarith [erfc_antitone hdiv]

lemma fill_tauchen_rowsum (x : ℕ → ℝ) (n : ℕ) (rho sigma half_step : ℝ)
    (hn : 2 ≤ n)
    (hx : ∀ j, j + 1 < n → x (j + 1) - half_step = x j + half_step)
    (i : ℕ) (hi : i < n) :
    ∑ j ∈ Finset.range n, fill_tauchen x n rho sigma half_step i j = 1 := by
  obtain ⟨w, rfl⟩ : ∃ w, n = w + 2 := ⟨n - 2, by omega⟩
  set g : ℕ → ℝ := fun j => std_norm_cdf ((x j - rho * x i + half_step) / sigma) with hg
  have h0 : fill_tauchen x (w + 2) rho sigma half_step i 0 = g 0 := by
    unfold fill_tauchen
    rw [if_neg (by omega), if_neg (by omega), if_pos rfl]
  have hlast : fill_tauchen x (w + 2) rho sigma half_step i (w + 1) = 1 - g w := by
    unfold fill_tauchen
    rw [if_neg (by omega), if_pos (by omega)]
    have hxe := hx w (by omega)
    have harg : x (w + 2 - 1) - rho * x i - half_step =
        x w - rho * x i + half_step := by
      rw [show w + 2 - 1 = w + 1 from by omega]
      linarith
    rw [harg]
  have hint : ∀ j, 1 ≤ j → j < w + 1 →
      fill_tauchen x (w + 2) rho sigma half_step i j = g j - g (j - 1) := by
    intro j hj1 hj2
    unfold fill_tauchen
    rw [if_neg (by omega), if_neg (by omega), if_neg (by omega)]
    have hxe := hx (j - 1) (by omega)
    rw [show j - 1 + 1 = j from by omega] at hxe
    have harg : x j - rho * x i - half_step = x (j - 1) - rho * x i + half_step := by
      linarith
    rw [harg]
  rw [Finset.sum_range_succ, Finset.sum_range_succ']
  have hsum : ∑ j ∈ Finset.range w,
      fill_tauchen x (w + 2) rho sigma half_step i (j + 1) =
      ∑ j ∈ Finset.range w, (g (j + 1) - g j) := by
    refine Finset.sum_congr rfl fun j hj => ?_
    have hj' := Finset.mem_range.1 hj
    rw [hint (j + 1) (by omega) (by omega), show j + 1 - 1 = j from by omega]
  rw [hsum, Finset.sum_range_sub, h0, hlast]
  ring

lemma fill_tauchen_entry_bounds (x : ℕ → ℝ) (n : ℕ) (rho sigma half_step : ℝ)
    (hσ : 0 < sigma) (hh : 0 ≤ half_step) (i j : ℕ) :
    0 ≤ fill_tauchen x n rho sigma half_step i j ∧
      fill_tauchen x n rho sigma half_step i j ≤ 1 := by
  unfold fill_tauchen
  split_ifs with h1 h2 h3
  · norm_num
  · constructor
    · linarith [std_norm_cdf_le_one ((x (n - 1) - rho * x i - half_step) / sigma)]
    · linarith [std_norm_cdf_nonneg ((x (n - 1) - rho * x i - half_step) / sigma)]
  · exact ⟨std_norm_cdf_nonneg _, std_norm_cdf_le_one _⟩
  · have hba : (x j - rho * x i - half_step) / sigma ≤
        (x j - rho * x i + half_step) / sigma :=
      (div_le_div_right hσ).2 (by linarith)
    have hmono := std_norm_cdf_mono hba
    constructor
    · linarith
    · linarith [std_norm_cdf_le_one ((x j - rho * x i + half_step) / sigma),
        std_norm_cdf_nonneg ((x j - rho * x i - half_step) / sigma)]

lemma linspace_spacing (a c : ℝ) (n : ℕ) (j : ℕ) :
    linspace a c n (j + 1) - linspace a c n j = (c - a) / ((n : ℝ) - 1) := by
  unfold linspace
  push_cast
  ring

lemma tauchen_ok (rho sigma_u b m : ℝ) (n : ℕ) (hn : 2 ≤ n)
    (h1 : (1 : ℝ) - rho ^ 2 ≠ 0) (h3 : (1 : ℝ) - rho ≠ 0) :
    tauchen rho sigma_u b m n = .ok
      ⟨fill_tauchen
          (linspace (-(m * npSqrt (sigma_u ^ 2 / (1 - rho ^ 2))))
            (m * npSqrt (sigma_u ^ 2 / (1 - rho ^ 2))) n) n rho sigma_u
          (0.5 * ((m * npSqrt (sigma_u ^ 2 / (1 - rho ^ 2)) -
            -(m * npSqrt (sigma_u ^ 2 / (1 - rho ^ 2)))) / ((n : ℝ) - 1))),
       fun i =>
         linspace (-(m * npSqrt (sigma_u ^ 2 / (1 - rho ^ 2))))
           (m * npSqrt (sigma_u ^ 2 / (1 - rho ^ 2))) n i + b / (1 - rho)⟩ := by
  have hn1 : ((n : ℝ) - 1) ≠ 0 := by
    have : (2 : ℝ) ≤ (n : ℝ) := by exact_mod_cast hn
    linarith
  have hd1 : pyDiv (sigma_u ^ 2) (1 - rho ^ 2) = .ok (sigma_u ^ 2 / (1 - rho ^ 2)) := by
    unfold pyDiv; rw [if_neg h1]
  have hd2 : pyDiv (m * npSqrt (sigma_u ^ 2 / (1 - rho ^ 2)) -
      -(m * npSqrt (sigma_u ^ 2 / (1 - rho ^ 2)))) ((n : ℝ) - 1) =
      .ok ((m * npSqrt (sigma_u ^ 2 / (1 - rho ^ 2)) -
        -(m * npSqrt (sigma_u ^ 2 / (1 - rho ^ 2)))) / ((n : ℝ) - 1)) := by
    unfold pyDiv; rw [if_neg hn1]
  have hd3 : pyDiv b (1 - rho) = .ok (b / (1 - rho)) := by
    unfold pyDiv; rw [if_neg h3]
  unfold tauchen
  rw [hd1]
  show (pyDiv (m * npSqrt (sigma_u ^ 2 / (1 - rho ^ 2)) -
    -(m * npSqrt (sigma_u ^ 2 / (1 - rho ^ 2)))) ((n : ℝ) - 1)).bind _ = _
  rw [hd2]
  show (pyDiv b (1 - rho)).bind _ = _
  rw [hd3]
  rfl

lemma except_bind_ok {α β : Type} (x : Except PyErr α) (f : α → Except PyErr β) (c : β)
    (h : x.bind f = .ok c) : ∃ a, x = .ok a ∧ f a = .ok c := by
  cases x with
  | error e => exact absurd h (by simp [Except.bind])
  | ok a => exact ⟨a, rfl, h⟩

lemma rouwenhorst_ok_inv (n : ℕ) (ybar sigma rho : ℝ) (mc : MarkovChain ℤ)
    (hok : rouwenhorst n ybar sigma rho = .ok mc) :
    2 ≤ n ∧ mc.P = rbAux ((1 + rho) / 2) ((1 + rho) / 2) (n - 2) := by
  unfold rouwenhorst at hok
  obtain ⟨y_sd, h1, hok⟩ := except_bind_ok _ _ _ hok
  obtain ⟨theta, h2, hok⟩ := except_bind_ok _ _ _ hok
  obtain ⟨shift, h3, hok⟩ := except_bind_ok _ _ _ hok
  unfold row_build_mat at h2
  by_cases hn : n < 2
  · rw [if_pos hn] at h2
    exact absurd h2 (by simp)
  · rw [if_neg hn] at h2
    have hth : rbAux ((1 + rho) / 2) ((1 + rho) / 2) (n - 2) = theta :=
      (Except.ok.injEq _ _).mp h2
    have hmc := (Except.ok.injEq _ _).mp hok
    refine ⟨by omega, ?_⟩
    rw [← hmc]
    exact hth.symm

/-- C1: for every `n ≥ 2`, `|rho| < 1`, `sigma > 0` the matrix returned by
`rouwenhorst` has every row summing to 1 and every entry in `[0, 1]`, and for every
`n ≥ 2`, `m > 0`, `sigma_u > 0`, `|rho| < 1` the same holds for the matrix returned by
`tauchen`.  In this real-arithmetic embedding the row sums are exactly 1, which is in
particular within the spec's floating-point tolerance `1e-10`. -/
theorem claim_C1 :
    (∀ (n : ℕ) (ybar sigma rho : ℝ) (mc : MarkovChain ℤ), 2 ≤ n → |rho| < 1 →
      0 < sigma → rouwenhorst n ybar sigma rho = .ok mc →
      (∀ i : ℕ, i < n → ∑ j ∈ Finset.range n, mc.P (i : ℤ) (j : ℤ) = 1) ∧
      (∀ i j : ℕ, i < n → j < n →
        0 ≤ mc.P (i : ℤ) (j : ℤ) ∧ mc.P (i : ℤ) (j : ℤ) ≤ 1)) ∧
    (∀ (rho sigma_u b m : ℝ) (n : ℕ) (mc : MarkovChain ℕ), 2 ≤ n → 0 < m →
      0 < sigma_u → |rho| < 1 → tauchen rho sigma_u b m n = .ok mc →
      (∀ i : ℕ, i < n → ∑ j ∈ Finset.range n, mc.P i j = 1) ∧
      (∀ i j : ℕ, i < n → j < n → 0 ≤ mc.P i j ∧ mc.P i j ≤ 1)) := by
  constructor
  · intro n ybar sigma rho mc hn hrho hσ hok
    obtain ⟨hr1, hr2⟩ := abs_lt.1 hrho
    obtain ⟨_, hP⟩ := rouwenhorst_ok_inv n ybar sigma rho mc hok
    have hp0 : 0 ≤ (1 + rho) / 2 := by linarith
    have hp1 : (1 + rho) / 2 ≤ 1 := by linarith
    constructor
    · intro i hi
      rw [hP, show n = n - 2 + 2 from by omega]
      refine rbAux_rowsum _ _ (n - 2) (i : ℤ) (Int.natCast_nonneg i) ?_
      omega
    · intro i j hi hj
      rw [hP]
      exact ⟨rbAux_nonneg _ _ hp0 hp1 hp0 hp1 (n - 2) _ _,
        rbAux_le_one _ _ hp0 hp1 hp0 hp1 (n - 2) _ _⟩
  · intro rho sigma_u b m n mc hn hm hσ hrho hok
    obtain ⟨hr1, hr2⟩ := abs_lt.1 hrho
    rw [tauchen_ok rho sigma_u b m n hn (by nlinarith)
      (by intro hc; linarith [sub_eq_zero.1 hc])] at hok
    have hmc := (Except.ok.injEq _ _).mp hok
    subst hmc
    have hc0 : 0 ≤ m * npSqrt (sigma_u ^ 2 / (1 - rho ^ 2)) :=
      mul_nonneg hm.le (Real.sqrt_nonneg _)
    have hn1 : (0 : ℝ) < (n : ℝ) - 1 := by
      have : (2 : ℝ) ≤ (n : ℝ) := by exact_mod_cast hn
      linarith
    have hh : 0 ≤ 0.5 * ((m * npSqrt (sigma_u ^ 2 / (1 - rho ^ 2)) -
        -(m * npSqrt (sigma_u ^ 2 / (1 - rho ^ 2)))) / ((n : ℝ) - 1)) := by
      have h1 : 0 ≤ (m * npSqrt (sigma_u ^ 2 / (1 - rho ^ 2)) -
          -(m * npSqrt (sigma_u ^ 2 / (1 - rho ^ 2)))) / ((n : ℝ) - 1) :=
        div_nonneg (by linarith) hn1.le
      linarith
    have hx : ∀ j, j + 1 < n →
        linspace (-(m * npSqrt (sigma_u ^ 2 / (1 - rho ^ 2))))
          (m * npSqrt (sigma_u ^ 2 / (1 - rho ^ 2))) n (j + 1) -
          0.5 * ((m * npSqrt (sigma_u ^ 2 / (1 - rho ^ 2)) -
            -(m * npSqrt (sigma_u ^ 2 / (1 - rho ^ 2)))) / ((n : ℝ) - 1)) =
        linspace (-(m * npSqrt (sigma_u ^ 2 / (1 - rho ^ 2))))
          (m * npSqrt (sigma_u ^ 2 / (1 - rho ^ 2))) n j +
          0.5 * ((m * npSqrt (sigma_u ^ 2 / (1 - rho ^ 2)) -
            -(m * npSqrt (sigma_u ^ 2 / (1 - rho ^ 2)))) / ((n : ℝ) - 1)) := by
      intro j _
      have hsp := linspace_spacing (-(m * npSqrt (sigma_u ^ 2 / (1 - rho ^ 2))))
        (m * npSqrt (sigma_u ^ 2 / (1 - rho ^ 2))) n j
      linarith
    constructor
    · intro i hi
      exact fill_tauchen_rowsum _ n rho sigma_u _ hn hx i hi
    · intro i j hi hj
      exact fill_tauchen_entry_bounds _ n rho sigma_u _ hσ hh i j

/-- C1 witness: at `rouwenhorst 2 0 1 0` and `tauchen 0 1 0 1 2` both calls succeed and
the claimed row-sum and entry-range properties hold. -/
theorem claim_C1_witness :
    (∃ mcR : MarkovChain ℤ, rouwenhorst 2 0 1 0 = .ok mcR ∧
      (∀ i : ℕ, i < 2 → ∑ j ∈ Finset.range 2, mcR.P (i : ℤ) (j : ℤ) = 1) ∧
      (∀ i j : ℕ, i < 2 → j < 2 →
        0 ≤ mcR.P (i : ℤ) (j : ℤ) ∧ mcR.P (i : ℤ) (j : ℤ) ≤ 1)) ∧
    (∃ mcT : MarkovChain ℕ, tauchen 0 1 0 1 2 = .ok mcT ∧
      (∀ i : ℕ, i < 2 → ∑ j ∈ Finset.range 2, mcT.P i j = 1) ∧
      (∀ i j : ℕ, i < 2 → j < 2 → 0 ≤ mcT.P i j ∧ mcT.P i j ≤ 1)) := by
  have h0 : |(0 : ℝ)| < 1 := by rw [abs_zero]; norm_num
  constructor
  · exact ⟨_, rouwenhorst_ok 2 0 1 0 (by norm_num) h0,
      claim_C1.1 2 0 1 0 _ (by norm_num) h0 (by norm_num)
        (rouwenhorst_ok 2 0 1 0 (by norm_num) h0)⟩
  · exact ⟨_, tauchen_ok 0 1 0 1 2 (by norm_num) (by norm_num) (by norm_num),
      claim_C1.2 0 1 0 1 2 _ (by norm_num) (by norm_num) (by norm_num) h0
        (tauchen_ok 0 1 0 1 2 (by norm_num) (by norm_num) (by norm_num))⟩

/-- C2: the standard normal CDF of the source is computed as `0.5·erfc(−x/√2)`, and for
`n ≥ 2` and in-range indices every entry filled by `_fill_tauchen` equals the spec's
closed form (leftmost column, rightmost column, interior difference of CDFs). -/
theorem claim_C2 :
    (∀ t : ℝ, std_norm_cdf t = 0.5 * erfc (-t / Real.sqrt 2)) ∧
    (∀ (x : ℕ → ℝ) (n : ℕ) (rho sigma half_step : ℝ) (i j : ℕ),
      2 ≤ n → i < n → j < n →
      fill_tauchen x n rho sigma half_step i j =
        tauchen_entry_spec x n rho sigma half_step i j) := by
  constructor
  · intro t; rfl
  · intro x n rho sigma half_step i j hn hi hj
    unfold fill_tauchen tauchen_entry_spec
    rw [if_neg (by omega)]
    by_cases hj0 : j = 0
    · rw [if_neg (by omega), if_pos hj0, if_pos hj0]
      rfl
    · by_cases hjn : j = n - 1
      · rw [if_pos hjn, if_neg hj0, if_pos hjn]
        rfl
      · rw [if_neg hjn, if_neg hj0, if_neg hj0, if_neg hjn]
        rfl

/-- C2 witness: the entry identity at the concrete input
`x = 0, n = 2, rho = 0, sigma = 1, half_step = 0, i = 0, j = 1`, together with the
CDF identity at `t = 0`. -/
theorem claim_C2_witness :
    std_norm_cdf 0 = 0.5 * erfc (-0 / Real.sqrt 2) ∧
    fill_tauchen (fun _ => 0) 2 0 1 0 0 1 = tauchen_entry_spec (fun _ => 0) 2 0 1 0 0 1 :=
  ⟨claim_C2.1 0,
    claim_C2.2 (fun _ => 0) 2 0 1 0 0 1 (by norm_num) (by norm_num) (by norm_num)⟩

/-- C10: whenever `rouwenhorst` returns a Markov chain, its transition matrix is
centrally symmetric: `θ[i,j] = θ[n−1−i, n−1−j]` — a consequence of the symmetric
persistence parameters `p = q = (1+rho)/2` in the recursive construction. -/
theorem claim_C10 (n : ℕ) (ybar sigma rho : ℝ) (mc : MarkovChain ℤ)
    (hok : rouwenhorst n ybar sigma rho = .ok mc) (i j : ℤ) :
    mc.P i j = mc.P ((n : ℤ) - 1 - i) ((n : ℤ) - 1 - j) := by
  obtain ⟨hn, hP⟩ := rouwenhorst_ok_inv n ybar sigma rho mc hok
  rw [hP]
  have hcast : ((n - 2 : ℕ) : ℤ) + 1 = (n : ℤ) - 1 := by omega
  rw [rbAux_symm ((1 + rho) / 2) (n - 2) i j, hcast]

/-- C10 witness: the symmetry at `rouwenhorst 2 0 1 0`, entry `(0, 1)`. -/
theorem claim_C10_witness :
    ∃ mc : MarkovChain ℤ, rouwenhorst 2 0 1 0 = .ok mc ∧
      mc.P 0 1 = mc.P ((2 : ℤ) - 1 - 0) ((2 : ℤ) - 1 - 1) := by
  have h0 : |(0 : ℝ)| < 1 := by rw [abs_zero]; norm_num
  exact ⟨_, rouwenhorst_ok 2 0 1 0 (by norm_num) h0,
    claim_C10 2 0 1 0 _ (rouwenhorst_ok 2 0 1 0 (by norm_num) h0) 0 1⟩

lemma sim_pair_sum (m : ℕ) (A C S : ℕ → ℕ → ℝ) (n : ℕ) (hn : 1 ≤ n) (burn_in : ℕ)
    (randn : ℕ → ℕ → ℕ → ℝ) (seed : ℕ) (t : ℕ) :
    ∑ a ∈ Finset.range n, ∑ c ∈ Finset.range n,
      (if burn_in < t ∧ quantIx m S n (xsTraj m A C randn seed t) = a ∧
          quantIx m S n (xsTraj m A C randn seed (t + 1)) = c then (1 : ℝ) else 0) =
      if burn_in < t then 1 else 0 := by
  by_cases hbt : burn_in < t
  · simp only [hbt, true_and, if_true]
    have h3 : ∀ a, ∑ c ∈ Finset.range n,
        (if quantIx m S n (xsTraj m A C randn seed t) = a ∧
            quantIx m S n (xsTraj m A C randn seed (t + 1)) = c then (1 : ℝ) else 0) =
        if quantIx m S n (xsTraj m A C randn seed t) = a then 1 else 0 := by
      intro a
      by_cases ha : quantIx m S n (xsTraj m A C randn seed t) = a
      · simp only [ha, eq_self_iff_true, true_and, if_true]
        rw [Finset.sum_ite_eq]
        have hmem : quantIx m S n (xsTraj m A C randn seed (t + 1)) ∈
            Finset.range n := Finset.mem_range.2 (argmin_lt _ n hn)
        rw [if_pos hmem]
      · simp only [ha, false_and, if_false]
        simp
    rw [Finset.sum_congr rfl fun a _ => h3 a]
    rw [Finset.sum_ite_eq]
    have hmem : quantIx m S n (xsTraj m A C randn seed t) ∈ Finset.range n :=
      Finset.mem_range.2 (argmin_lt _ n hn)
    rw [if_pos hmem]
  · simp only [hbt, false_and, if_false]
    simp

/-- C5: in `_run_sim` the count matrix stays identically zero through iteration
`burn_in + 1` (counting starts strictly after the burn-in index), and over the whole
run of `sim_length + burn_in` iterations exactly `sim_length − 1` consecutive
quantized-index pairs are counted: the total of all counts is `sim_length − 1`, one
sample more than the nominal burn-in count is skipped. -/
theorem claim_C5 (m : ℕ) (A C S : ℕ → ℕ → ℝ) (n sim_length burn_in seed : ℕ)
    (randn : ℕ → ℕ → ℕ → ℝ) (g0 : Rng) (hn : 1 ≤ n) :
    (∀ T a c, T ≤ burn_in + 1 →
      (runSimN m A C S n burn_in randn seed g0 T).Pi a c = 0) ∧
    ∑ a ∈ Finset.range n, ∑ c ∈ Finset.range n,
      (run_sim m A C S n sim_length burn_in seed randn g0).Pi a c =
      ((sim_length - 1 : ℕ) : ℝ) := by
  constructor
  · intro T a c hT
    rw [runSimN_Pi]
    refine Finset.sum_eq_zero fun t ht => ?_
    have := Finset.mem_range.1 ht
    rw [if_neg (by omega)]
  · simp only [run_sim, runSimN_Pi]
    have h1 : ∀ a : ℕ,
        ∑ c ∈ Finset.range n, ∑ t ∈ Finset.range (sim_length + burn_in),
          (if burn_in < t ∧ quantIx m S n (xsTraj m A C randn seed t) = a ∧
              quantIx m S n (xsTraj m A C randn seed (t + 1)) = c then (1 : ℝ) else 0) =
        ∑ t ∈ Finset.range (sim_length + burn_in), ∑ c ∈ Finset.range n,
          (if burn_in < t ∧ quantIx m S n (xsTraj m A C randn seed t) = a ∧
              quantIx m S n (xsTraj m A C randn seed (t + 1)) = c then (1 : ℝ) else 0) :=
      fun a => Finset.sum_comm
    rw [Finset.sum_congr rfl fun a _ => h1 a, Finset.sum_comm]
    rw [Finset.sum_congr rfl fun t _ =>
      sim_pair_sum m A C S n hn burn_in randn seed t]
    rw [Finset.sum_boole]
    have hfil : Finset.filter (fun t => burn_in < t)
        (Finset.range (sim_length + burn_in)) =
        Finset.Ico (burn_in + 1) (sim_length + burn_in) := by
      ext t
      simp only [Finset.mem_filter, Finset.mem_range, Finset.mem_Ico]
      omega
    rw [hfil, Nat.card_Ico]
    congr 1
    omega

/-- C5 witness: the two parts of C5 at the concrete simulation
`m = n = 1, sim_length = 3, burn_in = 0`. -/
theorem claim_C5_witness :
    (∀ T a c, T ≤ 0 + 1 →
      (runSimN 1 zeroM oneM zeroM 1 0 randnConst2 5 (0, 0) T).Pi a c = 0) ∧
    ∑ a ∈ Finset.range 1, ∑ c ∈ Finset.range 1,
      (run_sim 1 zeroM oneM zeroM 1 3 0 5 randnConst2 (0, 0)).Pi a c =
      ((3 - 1 : ℕ) : ℝ) :=
  claim_C5 1 zeroM oneM zeroM 1 3 0 5 randnConst2 (0, 0) (by norm_num)

lemma runSimN_g0_indep (m : ℕ) (A C S : ℕ → ℕ → ℝ) (n burn_in : ℕ)
    (randn : ℕ → ℕ → ℕ → ℝ) (seed : ℕ) (g0 g1 : Rng) (T : ℕ) :
    runSimN m A C S n burn_in randn seed g0 T =
      runSimN m A C S n burn_in randn seed g1 T := by
  induction T with
  | zero => rfl
  | succ T ih =>
    show runSimStep m A C S n burn_in randn T
        (runSimN m A C S n burn_in randn seed g0 T) =
      runSimStep m A C S n burn_in randn T
        (runSimN m A C S n burn_in randn seed g1 T)
    rw [ih]

/-- C3: `discrete_var` is deterministic — two calls with identical `A`, `Omega`,
`grid_sizes`, `std_devs`, `seed`, `sim_length` and `burn_in` (and the same enumeration
mode and external collaborators) return identical transition matrices, state spaces,
traces and final generator states, *whatever distinct process-wide generator states
`g0`, `g1` the two calls find*: `np.random.seed(seed)` discards the prior state, so
the result is a function of the arguments alone — and the nearest-neighbour
quantization used at each step minimizes the squared distance and resolves exact
distance ties by choosing the lowest state index. -/
theorem claim_C3 :
    (∀ (m : ℕ) (A Omega : ℕ → ℕ → ℝ) (gs : List ℕ) (sd : ℝ)
      (seed sl bi : ℕ) (rm : Bool)
      (lyap : (ℕ → ℕ → ℝ) → (ℕ → ℕ → ℝ) → (ℕ → ℕ → ℝ))
      (sqrtm : (ℕ → ℕ → ℝ) → (ℕ → ℕ → ℝ)) (randn : ℕ → ℕ → ℕ → ℝ) (g0 g1 : Rng),
      discrete_var m A Omega gs sd seed sl bi rm lyap sqrtm randn g0 =
        discrete_var m A Omega gs sd seed sl bi rm lyap sqrtm randn g1) ∧
    (∀ (m n : ℕ) (S : ℕ → ℕ → ℝ) (x : ℕ → ℝ) (j : ℕ), j < n →
      dist2 m (S (quantIx m S n x)) x ≤ dist2 m (S j) x ∧
        (dist2 m (S j) x ≤ dist2 m (S (quantIx m S n x)) x → quantIx m S n x ≤ j)) := by
  constructor
  · intro m A Omega gs sd seed sl bi rm lyap sqrtm randn g0 g1
    have hsim : dvSim m A Omega gs sd seed sl bi rm lyap sqrtm randn g0 =
        dvSim m A Omega gs sd seed sl bi rm lyap sqrtm randn g1 :=
      runSimN_g0_indep m A (sqrtm Omega) (dvStateSpace m lyap A Omega gs sd rm)
        gs.prod bi randn seed g0 g1 (sl + bi)
    have hsurv : dvSurv m A Omega gs sd seed sl bi rm lyap sqrtm randn g0 =
        dvSurv m A Omega gs sd seed sl bi rm lyap sqrtm randn g1 := by
      unfold dvSurv
      rw [hsim]
    unfold discrete_var
    rw [hsim, hsurv]
  · intro m n S x j hj
    exact ⟨argmin_is_min (fun jj => dist2 m (S jj) x) n j hj,
      fun hle => argmin_first (fun jj => dist2 m (S jj) x) n j hj hle⟩

/-- C3 witness: both parts at concrete inputs — the same call made from two different
prior generator states `(0, 0)` and `(3, 9)` returns the same value; the quantizer on a
one-state space. -/
theorem claim_C3_witness :
    discrete_var 1 zeroM zeroM [1] 1 5 1 0 true lyapOne sqrtmOne randnConst2 (0, 0) =
      discrete_var 1 zeroM zeroM [1] 1 5 1 0 true lyapOne sqrtmOne randnConst2 (3, 9) ∧
    (dist2 1 (zeroM (quantIx 1 zeroM 1 fun _ => 0)) (fun _ => 0) ≤
        dist2 1 (zeroM 0) (fun _ => 0) ∧
      (dist2 1 (zeroM 0) (fun _ => 0) ≤
          dist2 1 (zeroM (quantIx 1 zeroM 1 fun _ => 0)) (fun _ => 0) →
        quantIx 1 zeroM 1 (fun _ => 0) ≤ 0)) :=
  ⟨claim_C3.1 1 zeroM zeroM [1] 1 5 1 0 true lyapOne sqrtmOne randnConst2 (0, 0) (3, 9),
    claim_C3.2 1 1 zeroM (fun _ => 0) 0 (by norm_num)⟩

/-- C9 counterexample: the original claim — that a `discrete_var` call leaves the
process-wide random-generator state unchanged — is false at a concrete input: starting
from generator state `(0, 0)`, the call reseeds the legacy global generator
(`np.random.seed` inside `_run_sim`) and consumes draws, leaving state `(7, 1)`. -/
theorem claim_C9_counterexample :
    ¬((discrete_var 1 zeroM zeroM [1] 1 7 1 0 true lyapOne sqrtmOne randnConst2
        ((0, 0) : Rng)).2 = ((0, 0) : Rng)) := by
  intro hc
  have h : (discrete_var 1 zeroM zeroM [1] 1 7 1 0 true lyapOne sqrtmOne randnConst2
      ((0, 0) : Rng)).2 = ((7 : ℕ), (1 : ℕ)) :=
    runSimN_rng 1 zeroM (sqrtmOne zeroM)
      (dvStateSpace 1 lyapOne zeroM zeroM [1] 1 true) 1 0 randnConst2 7 (0, 0) 1
  rw [h] at hc
  simp at hc

/-- C9 (amended): a `discrete_var` call does mutate the process-wide generator state —
regardless of the state `g0` it finds, it leaves the state (seed, sim_length + burn_in):
the generator is reseeded with the call's seed and advanced by one draw per loop
iteration.  The draw sequence used is determined by the seed alone, so results are
reproducible, but the mutation is observable by any later caller of the generator. -/
theorem claim_C9_amended (m : ℕ) (A Omega : ℕ → ℕ → ℝ) (gs : List ℕ) (sd : ℝ)
    (seed sl bi : ℕ) (rm : Bool)
    (lyap : (ℕ → ℕ → ℝ) → (ℕ → ℕ → ℝ) → (ℕ → ℕ → ℝ))
    (sqrtm : (ℕ → ℕ → ℝ) → (ℕ → ℕ → ℝ)) (randn : ℕ → ℕ → ℕ → ℝ) (g0 : Rng) :
    (discrete_var m A Omega gs sd seed sl bi rm lyap sqrtm randn g0).2 =
      (seed, sl + bi) :=
  runSimN_rng m A (sqrtm Omega) (dvStateSpace m lyap A Omega gs sd rm) gs.prod bi
    randn seed g0 (sl + bi)

/-- C7 counterexample: at `rho = 2` (so `|rho| ≥ 1`) the call
`tauchen 2 1 0 3 7` raises neither of the two Python errors the numeric primitives can
produce — `1 - rho² = -3 ≠ 0` so the division succeeds and `np.sqrt` silently yields
NaN — so `tauchen` returns a result instead of raising, refuting the claim that both
constructors raise for every `|rho| ≥ 1`. -/
theorem claim_C7_counterexample :
    tauchen 2 1 0 3 7 ≠ .error PyErr.valueError ∧
      tauchen 2 1 0 3 7 ≠ .error PyErr.zeroDivisionError := by
  rw [tauchen_ok 2 1 0 3 7 (by norm_num) (by norm_num) (by norm_num)]
  constructor <;> intro hc <;> exact absurd hc (by simp)

/-- C7 (amended): `rouwenhorst` raises for every `|rho| ≥ 1` (with `sigma ≠ 0`):
`ZeroDivisionError` from the Python division at `|rho| = 1` and `ValueError` from
`math.sqrt` of a negative number for `|rho| > 1`.  `tauchen` raises only at
`|rho| = 1` (`ZeroDivisionError`); for `|rho| > 1` it returns a (NaN-filled) result
without raising, because it uses the non-raising `np.sqrt`. -/
theorem claim_C7_amended :
    (∀ (n : ℕ) (ybar sigma rho : ℝ), 1 ≤ |rho| → sigma ≠ 0 →
      ∃ e, rouwenhorst n ybar sigma rho = .error e) ∧
    (∀ (rho sigma_u b m : ℝ) (n : ℕ), |rho| = 1 →
      tauchen rho sigma_u b m n = .error .zeroDivisionError) ∧
    (∀ (rho sigma_u b m : ℝ) (n : ℕ), 1 < |rho| → 2 ≤ n →
      ∃ mc, tauchen rho sigma_u b m n = .ok mc) := by
  refine ⟨?_, ?_, ?_⟩
  · intro n ybar sigma rho hrho hσ
    rcases eq_or_lt_of_le hrho with heq | hlt
    · have h2 : (1 : ℝ) - rho ^ 2 = 0 := by
        have : rho ^ 2 = 1 := by
          have := sq_abs rho
          nlinarith [heq.symm]
        linarith
      have hd : pyDiv (sigma ^ 2) (1 - rho ^ 2) = .error .zeroDivisionError := by
        unfold pyDiv; rw [if_pos h2]
      refine ⟨.zeroDivisionError, ?_⟩
      unfold rouwenhorst
      rw [hd]
      rfl
    · have hρ2 : (1 : ℝ) < rho ^ 2 := by
        have := sq_abs rho
        nlinarith
      have hσ2 : 0 < sigma ^ 2 :=
        (sq_nonneg sigma).lt_of_ne (Ne.symm (pow_ne_zero 2 hσ))
      have hneg : sigma ^ 2 / (1 - rho ^ 2) < 0 :=
        div_neg_of_pos_of_neg hσ2 (by linarith)
      have hd : pyDiv (sigma ^ 2) (1 - rho ^ 2) = .ok (sigma ^ 2 / (1 - rho ^ 2)) := by
        unfold pyDiv; rw [if_neg (by linarith)]
      have hs : mathSqrt (sigma ^ 2 / (1 - rho ^ 2)) = .error .valueError := by
        unfold mathSqrt; rw [if_pos hneg]
      refine ⟨.valueError, ?_⟩
      unfold rouwenhorst
      rw [hd]
      show (mathSqrt (sigma ^ 2 / (1 - rho ^ 2))).bind _ = _
      rw [hs]
      rfl
  · intro rho sigma_u b m n hrho
    have h2 : (1 : ℝ) - rho ^ 2 = 0 := by
      have : rho ^ 2 = 1 := by
        have := sq_abs rho
        nlinarith [hrho]
      linarith
    have hd : pyDiv (sigma_u ^ 2) (1 - rho ^ 2) = .error .zeroDivisionError := by
      unfold pyDiv; rw [if_pos h2]
    unfold tauchen
    rw [hd]
    rfl
  · intro rho sigma_u b m n hrho hn
    have hρ2 : (1 : ℝ) < rho ^ 2 := by
      have := sq_abs rho
      nlinarith
    have hρ1 : rho ≠ 1 := by
      intro hc
      rw [hc] at hrho
      rw [abs_one] at hrho
      exact lt_irrefl 1 hrho
    exact ⟨_, tauchen_ok rho sigma_u b m n hn (by nlinarith)
      (by intro hc; exact hρ1 (by linarith [sub_eq_zero.1 hc]))⟩

/-- C7 witness: the amended statement at `rho = 2` for `rouwenhorst` (raises),
`rho = 1` for `tauchen` (ZeroDivisionError), and `rho = 2` for `tauchen` (returns). -/
theorem claim_C7_witness :
    (∃ e, rouwenhorst 3 0 1 2 = .error e) ∧
      tauchen 1 1 0 3 7 = .error .zeroDivisionError ∧
      ∃ mc, tauchen 2 1 0 3 7 = .ok mc := by
  have habs : |(2 : ℝ)| = 2 := abs_of_nonneg (by norm_num)
  refine ⟨?_, ?_, ?_⟩
  · exact claim_C7_amended.1 3 0 1 2 (by rw [habs]; norm_num) (by norm_num)
  · exact claim_C7_amended.2.1 1 1 0 3 7 abs_one
  · exact claim_C7_amended.2.2 2 1 0 3 7 (by rw [habs]; norm_num) (by norm_num)

/-- C8 counterexample: with `burn_in = 0`, `sim_length = 3` and every draw the constant
vector 2, the trace returned by `discrete_var` does not consist solely of simulated
post-burn-in draws: column 0 of `Xvec` is never written — every simulated state equals
2 in each coordinate while column 0 still holds its initial value 0 — refuting the
claim that no entry of the returned trace is left at its initial value. -/
theorem claim_C8_counterexample :
    ¬(∀ c, c < 3 → ∃ t, 0 < t ∧ t < 3 ∧ ∀ k,
      (discrete_var 1 zeroM zeroM [3] 2 5 3 0 true lyapOne sqrtmOne randnConst2
        ((0, 0) : Rng)).1.2.2 c k =
        xsTraj 1 zeroM (sqrtmOne zeroM) randnConst2 5 (t + 1) k) := by
  intro hcl
  obtain ⟨t, ht0, ht3, hk⟩ := hcl 0 (by norm_num)
  have h0 := hk 0
  have hXv : (discrete_var 1 zeroM zeroM [3] 2 5 3 0 true lyapOne sqrtmOne randnConst2
      ((0, 0) : Rng)).1.2.2 0 0 = 0 := by
    have h := runSimN_Xvec 1 zeroM (sqrtmOne zeroM)
      (dvStateSpace 1 lyapOne zeroM zeroM [3] 2 true) 3 0 randnConst2 5 (0, 0) 3 0 0
    rw [if_neg (by omega)] at h
    exact h
  have hxs : xsTraj 1 zeroM (sqrtmOne zeroM) randnConst2 5 (t + 1) 0 = 2 := by
    show mulVecN 1 zeroM (xsTraj 1 zeroM (sqrtmOne zeroM) randnConst2 5 t) 0 +
      mulVecN 1 (sqrtmOne zeroM) (randnConst2 5 t) 0 = 2
    simp [mulVecN, zeroM, sqrtmOne, oneM, randnConst2, Finset.sum_range_one]
  rw [hXv, hxs] at h0
  norm_num at h0

/-- C8 (amended): in the trace returned by `discrete_var` (`return_sim=True`), columns
`1 .. sim_length−1` hold the simulated continuous states of the counted steps (column
`c` is the state drawn at loop step `burn_in + c`), but column 0 is never written and
keeps its initial value 0. -/
theorem claim_C8_amended (m : ℕ) (A Omega : ℕ → ℕ → ℝ) (gs : List ℕ) (sd : ℝ)
    (seed sl bi : ℕ) (rm : Bool)
    (lyap : (ℕ → ℕ → ℝ) → (ℕ → ℕ → ℝ) → (ℕ → ℕ → ℝ))
    (sqrtm : (ℕ → ℕ → ℝ) → (ℕ → ℕ → ℝ)) (randn : ℕ → ℕ → ℕ → ℝ) (g0 : Rng) :
    (∀ c k, 1 ≤ c → c < sl →
      (discrete_var m A Omega gs sd seed sl bi rm lyap sqrtm randn g0).1.2.2 c k =
        xsTraj m A (sqrtm Omega) randn seed (bi + c + 1) k) ∧
    (∀ k,
      (discrete_var m A Omega gs sd seed sl bi rm lyap sqrtm randn g0).1.2.2 0 k = 0) := by
  constructor
  · intro c k h1 h2
    have h := runSimN_Xvec m A (sqrtm Omega) (dvStateSpace m lyap A Omega gs sd rm)
      gs.prod bi randn seed g0 (sl + bi) c k
    rw [if_pos (by omega)] at h
    exact h
  · intro k
    have h := runSimN_Xvec m A (sqrtm Omega) (dvStateSpace m lyap A Omega gs sd rm)
      gs.prod bi randn seed g0 (sl + bi) 0 k
    rw [if_neg (by omega)] at h
    exact h

/-- C8 witness: the amended statement at the concrete simulation of the
counterexample, trace column 1 (simulated) and column 0 (left at 0). -/
theorem claim_C8_witness :
    (discrete_var 1 zeroM zeroM [3] 2 5 3 0 true lyapOne sqrtmOne randnConst2
      ((0, 0) : Rng)).1.2.2 1 0 =
      xsTraj 1 zeroM (sqrtmOne zeroM) randnConst2 5 (0 + 1 + 1) 0 ∧
    (discrete_var 1 zeroM zeroM [3] 2 5 3 0 true lyapOne sqrtmOne randnConst2
      ((0, 0) : Rng)).1.2.2 0 0 = 0 :=
  ⟨(claim_C8_amended 1 zeroM zeroM [3] 2 5 3 0 true lyapOne sqrtmOne randnConst2
      (0, 0)).1 1 0 (by norm_num) (by norm_num),
    (claim_C8_amended 1 zeroM zeroM [3] 2 5 3 0 true lyapOne sqrtmOne randnConst2
      (0, 0)).2 0⟩

lemma argmin_eq_of {α : Type} [LinearOrder α] (d : ℕ → α) (n j0 : ℕ) (hj0 : j0 < n)
    (hmin : ∀ j, j < n → d j0 ≤ d j) (hfirst : ∀ j, j < j0 → d j0 < d j) :
    argmin d n = j0 := by
  have hn : 0 < n := by omega
  have h1 : d (argmin d n) ≤ d j0 := argmin_is_min d n j0 hj0
  have h2 : d j0 ≤ d (argmin d n) := hmin _ (argmin_lt d n hn)
  have h3 : argmin d n ≤ j0 := argmin_first d n j0 hj0 h2
  rcases lt_or_eq_of_le h3 with hlt | heq
  · exact absurd h1 (not_le.2 (hfirst _ hlt))
  · exact heq

lemma argmin_one {α : Type} [LinearOrder α] (d : ℕ → α) : argmin d 1 = 0 := by
  have h := argmin_succ d 0
  have h0 : argmin d 0 = 0 := rfl
  rw [h0, ite_self] at h
  simpa using h

lemma argmin_two {α : Type} [LinearOrder α] (d : ℕ → α) :
    argmin d 2 = if d 1 < d 0 then 1 else 0 := by
  have h := argmin_succ d 1
  rw [argmin_one] at h
  simpa using h

lemma argmin_three {α : Type} [LinearOrder α] (d : ℕ → α) :
    argmin d 3 = if d 2 < d (if d 1 < d 0 then 1 else 0) then 2
      else if d 1 < d 0 then 1 else 0 := by
  have h := argmin_succ d 2
  rw [argmin_two] at h
  simpa using h

lemma filter_decide_three (P : ℕ → Prop) [DecidablePred P]
    (h0 : ¬P 0) (h1 : P 1) (h2 : P 2) :
    (List.range 3).filter (fun j => decide (P j)) = [1, 2] := by
  have hr : List.range 3 = [0, 1, 2] := rfl
  rw [hr]
  simp [List.filter_cons, h0, h1, h2]

lemma discrete_var_PiN (m : ℕ) (A Omega : ℕ → ℕ → ℝ) (gs : List ℕ) (sd : ℝ)
    (seed sl bi : ℕ) (rm : Bool)
    (lyap : (ℕ → ℕ → ℝ) → (ℕ → ℕ → ℝ) → (ℕ → ℕ → ℝ))
    (sqrtm : (ℕ → ℕ → ℝ) → (ℕ → ℕ → ℝ)) (randn : ℕ → ℕ → ℕ → ℝ) (g0 : Rng)
    (a b : ℕ) :
    (discrete_var m A Omega gs sd seed sl bi rm lyap sqrtm randn g0).1.1 a b =
      (dvSim m A Omega gs sd seed sl bi rm lyap sqrtm randn g0).Pi
          ((dvSurv m A Omega gs sd seed sl bi rm lyap sqrtm randn g0).getD a gs.prod)
          ((dvSurv m A Omega gs sd seed sl bi rm lyap sqrtm randn g0).getD b gs.prod) /
        ∑ c ∈ Finset.range
          (dvSurv m A Omega gs sd seed sl bi rm lyap sqrtm randn g0).length,
          (dvSim m A Omega gs sd seed sl bi rm lyap sqrtm randn g0).Pi
            ((dvSurv m A Omega gs sd seed sl bi rm lyap sqrtm randn g0).getD a gs.prod)
            ((dvSurv m A Omega gs sd seed sl bi rm lyap sqrtm randn g0).getD c
              gs.prod) := rfl

lemma discrete_var_SP (m : ℕ) (A Omega : ℕ → ℕ → ℝ) (gs : List ℕ) (sd : ℝ)
    (seed sl bi : ℕ) (rm : Bool)
    (lyap : (ℕ → ℕ → ℝ) → (ℕ → ℕ → ℝ) → (ℕ → ℕ → ℝ))
    (sqrtm : (ℕ → ℕ → ℝ) → (ℕ → ℕ → ℝ)) (randn : ℕ → ℕ → ℕ → ℝ) (g0 : Rng)
    (a k : ℕ) :
    (discrete_var m A Omega gs sd seed sl bi rm lyap sqrtm randn g0).1.2.1 a k =
      dvStateSpace m lyap A Omega gs sd rm
        ((dvSurv m A Omega gs sd seed sl bi rm lyap sqrtm randn g0).getD a
          gs.prod) k := rfl

/-- C6 (exhibiting the code bug): at the concrete input
`m = 1, A = 0, Omega = 0, grid_sizes = [3], std_devs = 2, sim_length = 3, burn_in = 0`
with the stationary covariance 1 (grid `{-2, 0, 2}`), `C = 1` and draws `−2, 0, 2`,
the simulation counts the transitions `0 → 1` and `1 → 2`; state 2 survives pruning
(it is a destination) but is never a source, so its row of the raw count matrix sums
to zero.  `discrete_var` then divides that row by its zero row sum and returns
normally: in the returned matrix the row of the surviving state with value 2 (row 1)
is identically zero — its row sum is 0, not 1 — and no error of any kind is raised,
contradicting the spec's requirement of a reported NumericalDegeneracyError. -/
theorem claim_C6 :
    (discrete_var 1 zeroM zeroM [3] 2 5 3 0 true lyapOne sqrtmOne randnSteps
        ((0, 0) : Rng)).1.1 0 0 = 0 ∧
    (discrete_var 1 zeroM zeroM [3] 2 5 3 0 true lyapOne sqrtmOne randnSteps
        ((0, 0) : Rng)).1.1 0 1 = 1 ∧
    (discrete_var 1 zeroM zeroM [3] 2 5 3 0 true lyapOne sqrtmOne randnSteps
        ((0, 0) : Rng)).1.1 1 0 = 0 ∧
    (discrete_var 1 zeroM zeroM [3] 2 5 3 0 true lyapOne sqrtmOne randnSteps
        ((0, 0) : Rng)).1.1 1 1 = 0 ∧
    (discrete_var 1 zeroM zeroM [3] 2 5 3 0 true lyapOne sqrtmOne randnSteps
        ((0, 0) : Rng)).1.2.1 0 0 = 0 ∧
    (discrete_var 1 zeroM zeroM [3] 2 5 3 0 true lyapOne sqrtmOne randnSteps
        ((0, 0) : Rng)).1.2.1 1 0 = 2 := by
  have hr1 : List.range 1 = [0] := rfl
  have hr3 : List.range 3 = [0, 1, 2] := rfl
  have hgrid : dvGrids 1 lyapOne zeroM zeroM [3] 2 = [[-2, 0, 2]] := by
    unfold dvGrids lyapOne oneM
    rw [hr1]
    simp only [List.map_cons, List.map_nil, List.getD_cons_zero]
    rw [hr3]
    simp only [List.map_cons, List.map_nil]
    norm_num [linspace, Real.sqrt_one]
  have hrows : cartesian_product [[(-2 : ℝ), 0, 2]] true = [[-2], [0], [2]] := by
    simp [cartesian_product, cartRM]
  have hS : dvStateSpace 1 lyapOne zeroM zeroM [3] 2 true = fun j k =>
      (([[(-2 : ℝ)], [0], [2]]).getD j []).getD k 0 := by
    unfold dvStateSpace
    rw [hgrid, hrows]
  have hS0 : dvStateSpace 1 lyapOne zeroM zeroM [3] 2 true 0 0 = -2 := by rw [hS]; rfl
  have hS1 : dvStateSpace 1 lyapOne zeroM zeroM [3] 2 true 1 0 = 0 := by rw [hS]; rfl
  have hS2 : dvStateSpace 1 lyapOne zeroM zeroM [3] 2 true 2 0 = 2 := by rw [hS]; rfl
  have hx0 : ∀ k, xsTraj 1 zeroM (sqrtmOne zeroM) randnSteps 5 0 k = 0 := fun _ => rfl
  have hx1 : ∀ k, xsTraj 1 zeroM (sqrtmOne zeroM) randnSteps 5 1 k = -2 := by
    intro k
    show mulVecN 1 zeroM (xsTraj 1 zeroM (sqrtmOne zeroM) randnSteps 5 0) k +
      mulVecN 1 (sqrtmOne zeroM) (randnSteps 5 0) k = -2
    simp [mulVecN, zeroM, sqrtmOne, oneM, randnSteps, Finset.sum_range_one]
  have hx2 : ∀ k, xsTraj 1 zeroM (sqrtmOne zeroM) randnSteps 5 2 k = 0 := by
    intro k
    show mulVecN 1 zeroM (xsTraj 1 zeroM (sqrtmOne zeroM) randnSteps 5 1) k +
      mulVecN 1 (sqrtmOne zeroM) (randnSteps 5 1) k = 0
    simp [mulVecN, zeroM, sqrtmOne, oneM, randnSteps, Finset.sum_range_one]
  have hx3 : ∀ k, xsTraj 1 zeroM (sqrtmOne zeroM) randnSteps 5 3 k = 2 := by
    intro k
    show mulVecN 1 zeroM (xsTraj 1 zeroM (sqrtmOne zeroM) randnSteps 5 2) k +
      mulVecN 1 (sqrtmOne zeroM) (randnSteps 5 2) k = 2
    simp [mulVecN, zeroM, sqrtmOne, oneM, randnSteps, Finset.sum_range_one]
  have hdist : ∀ (j : ℕ) (x : ℕ → ℝ),
      dist2 1 (dvStateSpace 1 lyapOne zeroM zeroM [3] 2 true j) x =
        (dvStateSpace 1 lyapOne zeroM zeroM [3] 2 true j 0 - x 0) ^ 2 := by
    intro j x
    simp [dist2, Finset.sum_range_one]
  have hq0 : quantIx 1 (dvStateSpace 1 lyapOne zeroM zeroM [3] 2 true) 3
      (xsTraj 1 zeroM (sqrtmOne zeroM) randnSteps 5 0) = 1 := by
    refine argmin_eq_of _ 3 1 (by norm_num) ?_ ?_
    · intro j hj
      interval_cases j <;> simp only [hdist] <;>
        simp only [hS0, hS1, hS2, hx0] <;> norm_num
    · intro j hj
      interval_cases j
      simp only [hdist]
      simp only [hS0, hS1, hx0]
      norm_num
  have hq1 : quantIx 1 (dvStateSpace 1 lyapOne zeroM zeroM [3] 2 true) 3
      (xsTraj 1 zeroM (sqrtmOne zeroM) randnSteps 5 1) = 0 := by
    refine argmin_eq_of _ 3 0 (by norm_num) ?_ ?_
    · intro j hj
      interval_cases j <;> simp only [hdist] <;>
        simp only [hS0, hS1, hS2, hx1] <;> norm_num
    · intro j hj
      omega
  have hq2 : quantIx 1 (dvStateSpace 1 lyapOne zeroM zeroM [3] 2 true) 3
      (xsTraj 1 zeroM (sqrtmOne zeroM) randnSteps 5 2) = 1 := by
    refine argmin_eq_of _ 3 1 (by norm_num) ?_ ?_
    · intro j hj
      interval_cases j <;> simp only [hdist] <;>
        simp only [hS0, hS1, hS2, hx2] <;> norm_num
    · intro j hj
      interval_cases j
      simp only [hdist]
      simp only [hS0, hS1, hx2]
      norm_num
  have hq3 : quantIx 1 (dvStateSpace 1 lyapOne zeroM zeroM [3] 2 true) 3
      (xsTraj 1 zeroM (sqrtmOne zeroM) randnSteps 5 3) = 2 := by
    refine argmin_eq_of _ 3 2 (by norm_num) ?_ ?_
    · intro j hj
      interval_cases j <;> simp only [hdist] <;>
        simp only [hS0, hS1, hS2, hx3] <;> norm_num
    · intro j hj
      interval_cases j <;> simp only [hdist] <;>
        simp only [hS0, hS1, hS2, hx3] <;> norm_num
  have hPiRaw : ∀ a b,
      (dvSim 1 zeroM zeroM [3] 2 5 3 0 true lyapOne sqrtmOne randnSteps (0, 0)).Pi a b =
      ∑ t ∈ Finset.range 3,
        (if 0 < t ∧
            quantIx 1 (dvStateSpace 1 lyapOne zeroM zeroM [3] 2 true) 3
              (xsTraj 1 zeroM (sqrtmOne zeroM) randnSteps 5 t) = a ∧
            quantIx 1 (dvStateSpace 1 lyapOne zeroM zeroM [3] 2 true) 3
              (xsTraj 1 zeroM (sqrtmOne zeroM) randnSteps 5 (t + 1)) = b
          then (1 : ℝ) else 0) := fun a b =>
    runSimN_Pi 1 zeroM (sqrtmOne zeroM)
      (dvStateSpace 1 lyapOne zeroM zeroM [3] 2 true) 3 0 randnSteps 5 (0, 0) 3 a b
  have ht1 : (0 : ℕ) < 1 := by norm_num
  have ht2 : (0 : ℕ) < 2 := by norm_num
  have hPiVal : ∀ a b,
      (dvSim 1 zeroM zeroM [3] 2 5 3 0 true lyapOne sqrtmOne randnSteps (0, 0)).Pi a b =
      (if 0 = a ∧ 1 = b then (1 : ℝ) else 0) + (if 1 = a ∧ 2 = b then 1 else 0) := by
    intro a b
    rw [hPiRaw a b, Finset.sum_range_succ, Finset.sum_range_succ,
      Finset.sum_range_one]
    simp only [show (0 : ℕ) + 1 = 1 from rfl, show (1 : ℕ) + 1 = 2 from rfl,
      show (2 : ℕ) + 1 = 3 from rfl]
    rw [hq0, hq1, hq2, hq3]
    simp only [lt_irrefl, false_and, if_false, ht1, ht2, true_and, zero_add]
  have hcol : ∀ j,
      ∑ i ∈ Finset.range 3,
        (dvSim 1 zeroM zeroM [3] 2 5 3 0 true lyapOne sqrtmOne randnSteps
          (0, 0)).Pi i j =
      (if 1 = j then (1 : ℝ) else 0) + (if 2 = j then 1 else 0) := by
    intro j
    rw [Finset.sum_range_succ, Finset.sum_range_succ, Finset.sum_range_one]
    rw [hPiVal 0 j, hPiVal 1 j, hPiVal 2 j]
    norm_num
  have hsurv : dvSurv 1 zeroM zeroM [3] 2 5 3 0 true lyapOne sqrtmOne randnSteps
      (0, 0) = [1, 2] := by
    refine filter_decide_three
      (fun j => 0 < ∑ i ∈ Finset.range 3,
        (dvSim 1 zeroM zeroM [3] 2 5 3 0 true lyapOne sqrtmOne randnSteps
          (0, 0)).Pi i j) ?_ ?_ ?_
    · show ¬(0 < ∑ i ∈ Finset.range 3,
        (dvSim 1 zeroM zeroM [3] 2 5 3 0 true lyapOne sqrtmOne randnSteps
          (0, 0)).Pi i 0)
      rw [hcol 0]
      norm_num
    · show 0 < ∑ i ∈ Finset.range 3,
        (dvSim 1 zeroM zeroM [3] 2 5 3 0 true lyapOne sqrtmOne randnSteps
          (0, 0)).Pi i 1
      rw [hcol 1]
      norm_num
    · show 0 < ∑ i ∈ Finset.range 3,
        (dvSim 1 zeroM zeroM [3] 2 5 3 0 true lyapOne sqrtmOne randnSteps
          (0, 0)).Pi i 2
      rw [hcol 2]
      norm_num
  refine ⟨?_, ?_, ?_, ?_, ?_, ?_⟩
  · rw [discrete_var_PiN, hsurv]
    simp only [List.getD_cons_zero, List.getD_cons_succ, List.length_cons,
      List.length_nil]
    rw [Finset.sum_range_succ, Finset.sum_range_one]
    simp only [List.getD_cons_zero, List.getD_cons_succ]
    rw [hPiVal 1 1, hPiVal 1 2]
    norm_num
  · rw [discrete_var_PiN, hsurv]
    simp only [List.getD_cons_zero, List.getD_cons_succ, List.length_cons,
      List.length_nil]
    rw [Finset.sum_range_succ, Finset.sum_range_one]
    simp only [List.getD_cons_zero, List.getD_cons_succ]
    rw [hPiVal 1 1, hPiVal 1 2]
    norm_num
  · rw [discrete_var_PiN, hsurv]
    simp only [List.getD_cons_zero, List.getD_cons_succ, List.length_cons,
      List.length_nil]
    rw [Finset.sum_range_succ, Finset.sum_range_one]
    simp only [List.getD_cons_zero, List.getD_cons_succ]
    rw [hPiVal 2 1, hPiVal 2 2]
    norm_num
  · rw [discrete_var_PiN, hsurv]
    simp only [List.getD_cons_zero, List.getD_cons_succ, List.length_cons,
      List.length_nil]
    rw [Finset.sum_range_succ, Finset.sum_range_one]
    simp only [List.getD_cons_zero, List.getD_cons_succ]
    rw [hPiVal 2 1, hPiVal 2 2]
    norm_num
  · rw [discrete_var_SP, hsurv]
    simp only [List.getD_cons_zero]
    exact hS1
  · rw [discrete_var_SP, hsurv]
    simp only [List.getD_cons_zero, List.getD_cons_succ]
    exact hS2

lemma tileL_length {α : Type} (k : ℕ) (l : List α) :
    (tileL k l).length = k * l.length := by
  induction k with
  | zero => simp [tileL]
  | succ k ih => simp [tileL, ih, Nat.succ_mul, Nat.add_comm]

lemma count_tileL {α : Type} [DecidableEq α] (a : α) (k : ℕ) (l : List α) :
    (tileL k l).count a = k * l.count a := by
  induction k with
  | zero => simp [tileL]
  | succ k ih => simp [tileL, List.count_append, ih, Nat.succ_mul, Nat.add_comm]

lemma repeatEach_length {α : Type} (k : ℕ) (l : List α) :
    (repeatEach k l).length = k * l.length := by
  induction l with
  | nil => simp [repeatEach]
  | cons a l ih =>
    show (List.replicate k a ++ repeatEach k l).length = _
    simp [ih]
    ring

lemma count_repeatEach {α : Type} [DecidableEq α] (a : α) (k : ℕ) (l : List α) :
    (repeatEach k l).count a = k * l.count a := by
  induction l with
  | nil => simp [repeatEach]
  | cons b l ih =>
    show (List.replicate k b ++ repeatEach k l).count a = _
    simp only [List.count_append, ih, List.count_replicate, List.count_cons,
      beq_iff_eq]
    by_cases hab : b = a
    · simp [hab]
      ring
    · simp [hab, fun h : a = b => hab h.symm]

lemma mem_repeatEach {α : Type} (a : α) (k : ℕ) (l : List α) :
    a ∈ repeatEach k l ↔ k ≠ 0 ∧ a ∈ l := by
  induction l with
  | nil => simp [repeatEach]
  | cons b l ih =>
    show a ∈ List.replicate k b ++ repeatEach k l ↔ _
    simp only [List.mem_append, List.mem_replicate, ih, List.mem_cons]
    tauto

lemma sorted_le_replicate {α : Type} [LinearOrder α] (k : ℕ) (a : α) :
    List.Sorted (· ≤ ·) (List.replicate k a) := by
  induction k with
  | zero => simp
  | succ k ih =>
    rw [List.replicate_succ, List.sorted_cons]
    exact ⟨fun b hb => ((List.mem_replicate.1 hb).2).ge, ih⟩

lemma sorted_repeatEach {α : Type} [LinearOrder α] (k : ℕ) (l : List α)
    (hl : List.Sorted (· ≤ ·) l) : List.Sorted (· ≤ ·) (repeatEach k l) := by
  induction l with
  | nil => simp [repeatEach, List.Sorted]
  | cons b l ih =>
    rw [List.sorted_cons] at hl
    show List.Sorted (· ≤ ·) (List.replicate k b ++ repeatEach k l)
    rw [List.Sorted] at *
    rw [List.pairwise_append]
    refine ⟨sorted_le_replicate k b, ih hl.2, ?_⟩
    intro u hu v hv
    rw [List.mem_replicate] at hu
    have hv' := (mem_repeatEach v k l).1 hv
    rw [hu.2]
    exact hl.1 v hv'.2

lemma mergeSort_sorted_le {α : Type} [LinearOrder α] (l : List α) :
    List.Sorted (· ≤ ·) (l.mergeSort (fun a b => decide (a ≤ b))) := by
  have htrans : ∀ a b c : α, (fun x y : α => decide (x ≤ y)) a b = true →
      (fun x y : α => decide (x ≤ y)) b c = true →
      (fun x y : α => decide (x ≤ y)) a c = true := by
    intro a b c hab hbc
    simp only [decide_eq_true_eq] at *
    exact le_trans hab hbc
  have htotal : ∀ a b : α, ((fun x y : α => decide (x ≤ y)) a b ||
      (fun x y : α => decide (x ≤ y)) b a) = true := by
    intro a b
    simp only [Bool.or_eq_true, decide_eq_true_eq]
    exact le_total a b
  have h := List.sorted_mergeSort htrans htotal l
  exact h.imp fun hab => of_decide_eq_true hab

lemma mergeSort_tileL {α : Type} [LinearOrder α] (k : ℕ) (v : List α)
    (hv : List.Sorted (· ≤ ·) v) :
    (tileL k v).mergeSort (fun a b => decide (a ≤ b)) = repeatEach k v := by
  refine List.eq_of_perm_of_sorted ?_ (mergeSort_sorted_le _)
    (sorted_repeatEach k v hv)
  have h1 : ((tileL k v).mergeSort fun a b => decide (a ≤ b)).Perm (tileL k v) :=
    List.mergeSort_perm _ _
  have h2 : (tileL k v).Perm (repeatEach k v) := by
    rw [List.perm_iff_count]
    intro a
    rw [count_tileL, count_repeatEach]
  exact h1.trans h2

lemma getD_tileL {α : Type} (k : ℕ) (l : List α) (r : ℕ) (d : α)
    (h : r < k * l.length) :
    (tileL k l).getD r d = l.getD (r % l.length) d := by
  induction k generalizing r with
  | zero => omega
  | succ k ih =>
    show (l ++ tileL k l).getD r d = _
    by_cases hr : r < l.length
    · rw [List.getD_append _ _ _ _ hr, Nat.mod_eq_of_lt hr]
    · have hr' : l.length ≤ r := le_of_not_lt hr
      rw [List.getD_append_right _ _ _ _ hr']
      have hm : (k + 1) * l.length = k * l.length + l.length := Nat.succ_mul k l.length
      rw [ih (r - l.length) (by omega)]
      rw [← Nat.mod_eq_sub_mod hr']

lemma getD_repeatEach {α : Type} (k : ℕ) (hk : 0 < k) (l : List α) (s : ℕ) (d : α)
    (h : s < k * l.length) :
    (repeatEach k l).getD s d = l.getD (s / k) d := by
  induction l generalizing s with
  | nil => simp at h
  | cons a l ih =>
    show (List.replicate k a ++ repeatEach k l).getD s d = _
    by_cases hs : s < k
    · rw [List.getD_append _ _ _ _ (by simpa using hs), Nat.div_eq_of_lt hs,
        List.getD_cons_zero]
      rw [List.getD_eq_getElem _ _ (by simpa using hs), List.getElem_replicate]
    · have hs' : k ≤ s := le_of_not_lt hs
      rw [List.getD_append_right _ _ _ _ (by simpa using hs')]
      simp only [List.length_replicate]
      have hm : k * (l.length + 1) = k * l.length + k := Nat.mul_succ k l.length
      simp only [List.length_cons] at h
      rw [ih (s - k) (by omega)]
      rw [Nat.div_eq_sub_div hk hs', List.getD_cons_succ]

lemma drop_take_one {α : Type} (c : List α) (r : ℕ) (d : α) (h : r < c.length) :
    (c.drop r).take 1 = [c.getD r d] := by
  rw [List.drop_eq_getElem_cons h, List.take_succ_cons, List.take_zero,
    List.getD_eq_getElem _ _ h]

lemma rowAt_eq_map {α : Type} (cols : List (List α)) (r : ℕ) (d : α)
    (h : ∀ c ∈ cols, r < c.length) :
    rowAt cols r = cols.map fun c => c.getD r d := by
  induction cols with
  | nil => rfl
  | cons c cs ih =>
    show (c.drop r).take 1 ++ rowAt cs r = _
    rw [drop_take_one c r d (h c (by simp)), ih fun c' hc' => h c' (by simp [hc'])]
    rfl

lemma prodLen_cons {α : Type} (v : List α) (V : List (List α)) :
    prodLen (v :: V) = v.length * prodLen V := by
  rw [prodLen, List.map_cons, List.prod_cons]
  rfl

lemma prodLen_split {α : Type} (V : List (List α)) (i : ℕ) (hi : i < V.length) :
    prodLen V = ((V.map List.length).take i).prod *
      ((V.getD i []).length * ((V.map List.length).drop (i + 1)).prod) := by
  have hlen : i < (V.map List.length).length := by simpa using hi
  have hgs : V.map List.length = (V.map List.length).take i ++
      (V.getD i []).length :: (V.map List.length).drop (i + 1) := by
    calc V.map List.length =
        (V.map List.length).take i ++ (V.map List.length).drop i :=
          (List.take_append_drop _ _).symm
      _ = _ := by
        rw [List.drop_eq_getElem_cons hlen]
        congr 2
        rw [List.getElem_map]
        congr 1
        exact (List.getD_eq_getElem V [] hi).symm
  conv_lhs => rw [prodLen, hgs]
  rw [List.prod_append, List.prod_cons]

lemma colOf_length {α : Type} [LinearOrder α] (V : List (List α)) (i : ℕ)
    (hi : i < V.length) : (colOf V i).length = prodLen V := by
  unfold colOf
  by_cases h0 : i = 0
  · subst h0
    rw [if_pos rfl]
    rw [tileL_length, prodLen_split V 0 hi]
    simp only [List.take_zero, List.prod_nil]
    ring
  · simp only [if_neg h0]
    rw [tileL_length, List.length_mergeSort, tileL_length, prodLen_split V i hi]
    ring

lemma mod_mul_div (r P g : ℕ) (hP : 0 < P) : r % (P * g) / P = r / P % g := by
  rcases Nat.eq_zero_or_pos g with hg | hg
  · subst hg
    simp [Nat.mul_zero, Nat.mod_zero]
  · have hdm := Nat.div_add_mod r (P * g)
    have hs : r % (P * g) < P * g := Nat.mod_lt _ (Nat.mul_pos hP hg)
    have h2 : r / P = r % (P * g) / P + g * (r / (P * g)) := by
      conv_lhs => rw [← hdm]
      rw [Nat.add_comm, Nat.mul_assoc]
      rw [Nat.add_mul_div_left _ _ hP]
    rw [h2]
    have h3 : r % (P * g) / P < g := Nat.div_lt_of_lt_mul hs
    rw [Nat.add_mul_mod_self_left, Nat.mod_eq_of_lt h3]

lemma colOf_getD {α : Type} [LinearOrder α] (V : List (List α)) (i : ℕ)
    (hi : i < V.length) (hv : List.Sorted (· ≤ ·) (V.getD i [])) (r : ℕ)
    (hr : r < prodLen V) (d : α) :
    (colOf V i).getD r d =
      (V.getD i []).getD
        (r / ((V.map List.length).take i).prod % (V.getD i []).length) d := by
  have hsplit := prodLen_split V i hi
  have hprodpos : 0 < prodLen V := lt_of_le_of_lt (Nat.zero_le r) hr
  have hP0 : 0 < ((V.map List.length).take i).prod := by
    rcases Nat.eq_zero_or_pos ((V.map List.length).take i).prod with h | h
    · rw [h, Nat.zero_mul] at hsplit
      omega
    · exact h
  have hg0 : 0 < (V.getD i []).length := by
    rcases Nat.eq_zero_or_pos (V.getD i []).length with h | h
    · rw [h, Nat.zero_mul, Nat.mul_zero] at hsplit
      omega
    · exact h
  have hQ0 : 0 < ((V.map List.length).drop (i + 1)).prod := by
    rcases Nat.eq_zero_or_pos ((V.map List.length).drop (i + 1)).prod with h | h
    · rw [h, Nat.mul_zero, Nat.mul_zero] at hsplit
      omega
    · exact h
  unfold colOf
  by_cases h0 : i = 0
  · subst h0
    rw [if_pos rfl]
    have hP1 : ((V.map List.length).take 0).prod = 1 := by simp
    have hb : r < ((V.map List.length).drop (0 + 1)).prod * (V.getD 0 []).length := by
      have hc : ((V.map List.length).drop (0 + 1)).prod * (V.getD 0 []).length =
          (V.getD 0 []).length * ((V.map List.length).drop (0 + 1)).prod :=
        Nat.mul_comm _ _
      rw [hP1, Nat.one_mul] at hsplit
      omega
    rw [getD_tileL _ _ r d hb, hP1, Nat.div_one]
  · simp only [if_neg h0]
    rw [mergeSort_tileL _ _ hv]
    have hlenRE : (repeatEach ((V.map List.length).take i).prod (V.getD i [])).length =
        ((V.map List.length).take i).prod * (V.getD i []).length := repeatEach_length _ _
    have hb : r < ((V.map List.length).drop (i + 1)).prod *
        (repeatEach ((V.map List.length).take i).prod (V.getD i [])).length := by
      rw [hlenRE]
      have hc : ((V.map List.length).drop (i + 1)).prod *
          (((V.map List.length).take i).prod * (V.getD i []).length) =
          ((V.map List.length).take i).prod *
            ((V.getD i []).length * ((V.map List.length).drop (i + 1)).prod) := by
        ring
      omega
    rw [getD_tileL _ _ r d hb, hlenRE]
    have hb2 : r % (((V.map List.length).take i).prod * (V.getD i []).length) <
        ((V.map List.length).take i).prod * (V.getD i []).length :=
      Nat.mod_lt _ (Nat.mul_pos hP0 hg0)
    rw [getD_repeatEach _ hP0 _ _ d hb2]
    congr 1
    exact mod_mul_div r _ _ hP0

lemma cartRM_length {α : Type} (V : List (List α)) :
    (cartRM V).length = prodLen V := by
  induction V with
  | nil => rfl
  | cons v V ih =>
    show (v.flatMap fun a => (cartRM V).map (a :: ·)).length = prodLen (v :: V)
    rw [List.length_flatMap]
    have h1 : List.map (List.length ∘ fun a => (cartRM V).map (a :: ·)) v =
        List.replicate v.length (cartRM V).length := by
      rw [show (List.length ∘ fun a => (cartRM V).map (a :: ·)) =
          Function.const α (cartRM V).length from ?_]
      · exact List.map_const v _
      · funext a
        simp
    rw [h1, List.sum_replicate, smul_eq_mul, ih, prodLen_cons]

lemma flatMap_getD {α β : Type} (v : List α) (f : α → List β) (L : ℕ)
    (hL : ∀ a, (f a).length = L) (r : ℕ) (hr : r < v.length * L) (d : β) (dα : α) :
    (v.flatMap f).getD r d = (f (v.getD (r / L) dα)).getD (r % L) d := by
  induction v generalizing r with
  | nil => simp at hr
  | cons a v ih =>
    show (f a ++ v.flatMap f).getD r d = _
    by_cases h : r < L
    · rw [List.getD_append _ _ _ _ (by rw [hL a]; exact h)]
      rw [Nat.div_eq_of_lt h, Nat.mod_eq_of_lt h, List.getD_cons_zero]
    · have h' : L ≤ r := le_of_not_lt h
      simp only [List.length_cons] at hr
      have hsm : (v.length + 1) * L = v.length * L + L := Nat.succ_mul _ _
      have hL0 : 0 < L := by
        rcases Nat.eq_zero_or_pos L with h0 | h0
        · subst h0
          simp at hr
        · exact h0
      have hb : r - L < v.length * L := by omega
      rw [List.getD_append_right _ _ _ _ (by rw [hL a]; exact h')]
      rw [hL a]
      rw [ih (r - L) hb]
      rw [Nat.div_eq_sub_div hL0 h', ← Nat.mod_eq_sub_mod h', List.getD_cons_succ]

lemma cartRM_getD {α : Type} (V : List (List α)) (r : ℕ) (hr : r < prodLen V)
    (dα : α) : (cartRM V).getD r [] = decRM dα V r := by
  induction V generalizing r with
  | nil =>
    have h1 : r = 0 := by
      have : prodLen ([] : List (List α)) = 1 := rfl
      omega
    subst h1
    rfl
  | cons v V ih =>
    rw [prodLen_cons] at hr
    have hP0 : 0 < prodLen V := by
      rcases Nat.eq_zero_or_pos (prodLen V) with h | h
      · rw [h, Nat.mul_zero] at hr
        omega
      · exact h
    show (v.flatMap fun a => (cartRM V).map (a :: ·)).getD r [] =
      v.getD (r / prodLen V) dα :: decRM dα V (r % prodLen V)
    rw [flatMap_getD v _ (prodLen V)
      (fun a => by rw [List.length_map, cartRM_length]) r hr [] dα]
    have hmod : r % prodLen V < prodLen V := Nat.mod_lt _ hP0
    have hlt : r % prodLen V < (cartRM V).length := by
      rw [cartRM_length]
      exact hmod
    have hmap : ((cartRM V).map fun s => v.getD (r / prodLen V) dα :: s).getD
        (r % prodLen V) [] =
        v.getD (r / prodLen V) dα :: (cartRM V).getD (r % prodLen V) [] := by
      rw [List.getD_eq_getElem _ _ (by rw [List.length_map]; exact hlt)]
      rw [List.getElem_map]
      rw [List.getD_eq_getElem _ _ hlt]
    rw [hmap, ih (r % prodLen V) hmod]

lemma map_entry_eq_decCM {α : Type} (V : List (List α)) (r : ℕ) (d : α) :
    ((List.range V.length).map fun i =>
      (V.getD i []).getD
        (r / ((V.map List.length).take i).prod % (V.getD i []).length) d) =
      decCM d V r := by
  induction V generalizing r with
  | nil => rfl
  | cons v V ih =>
    rw [show (v :: V).length = V.length + 1 from rfl]
    rw [List.range_succ_eq_map, List.map_cons, List.map_map]
    rw [show decCM d (v :: V) r =
      v.getD (r % v.length) d :: decCM d V (r / v.length) from rfl]
    congr 1
    · simp only [List.getD_cons_zero, List.take_zero, List.prod_nil, Nat.div_one]
    · rw [← ih (r / v.length)]
      apply List.map_congr_left
      intro i hi
      simp only [Function.comp_apply, Nat.succ_eq_add_one, List.getD_cons_succ]
      have ht : (((v :: V).map List.length).take (i + 1)).prod =
          v.length * ((V.map List.length).take i).prod := by
        rw [List.map_cons, List.take_succ_cons, List.prod_cons]
      rw [ht, ← Nat.div_div_eq_div_mul]

lemma getD_map_range {α : Type} (l : List α) (d : α) :
    (List.range l.length).map (fun r => l.getD r d) = l := by
  apply List.ext_getElem
  · simp
  · intro i h1 h2
    simp only [List.getElem_map, List.getElem_range]
    exact List.getD_eq_getElem l d h2

lemma cmIx_lt {α : Type} (V : List (List α)) (r : ℕ) (hr : r < prodLen V) :
    cmIx V r < prodLen V := by
  induction V generalizing r with
  | nil =>
    show (0 : ℕ) < 1
    exact Nat.one_pos
  | cons v V ih =>
    rw [prodLen_cons] at hr ⊢
    have hP : 0 < prodLen V := by
      rcases Nat.eq_zero_or_pos (prodLen V) with h | h
      · rw [h, Nat.mul_zero] at hr
        omega
      · exact h
    have hl : 0 < v.length := by
      rcases Nat.eq_zero_or_pos v.length with h | h
      · rw [h, Nat.zero_mul] at hr
        omega
      · exact h
    show r % v.length * prodLen V + cmIx V (r / v.length) < v.length * prodLen V
    have h1 : r % v.length < v.length := Nat.mod_lt _ hl
    have h2 : r / v.length < prodLen V := Nat.div_lt_of_lt_mul hr
    have h3 := ih (r / v.length) h2
    calc r % v.length * prodLen V + cmIx V (r / v.length)
        < r % v.length * prodLen V + prodLen V := Nat.add_lt_add_left h3 _
      _ = (r % v.length + 1) * prodLen V := (Nat.succ_mul _ _).symm
      _ ≤ v.length * prodLen V := Nat.mul_le_mul_right _ (Nat.succ_le_of_lt h1)

lemma decRM_cmIx {α : Type} (d : α) (V : List (List α)) (r : ℕ)
    (hr : r < prodLen V) : decRM d V (cmIx V r) = decCM d V r := by
  induction V generalizing r with
  | nil => rfl
  | cons v V ih =>
    rw [prodLen_cons] at hr
    have hP : 0 < prodLen V := by
      rcases Nat.eq_zero_or_pos (prodLen V) with h | h
      · rw [h, Nat.mul_zero] at hr
        omega
      · exact h
    have h2 : r / v.length < prodLen V := Nat.div_lt_of_lt_mul hr
    have hc : cmIx V (r / v.length) < prodLen V := cmIx_lt V _ h2
    show v.getD ((r % v.length * prodLen V + cmIx V (r / v.length)) / prodLen V) d ::
        decRM d V ((r % v.length * prodLen V + cmIx V (r / v.length)) % prodLen V) =
      v.getD (r % v.length) d :: decCM d V (r / v.length)
    have hdiv : (r % v.length * prodLen V + cmIx V (r / v.length)) / prodLen V =
        r % v.length := by
      rw [Nat.add_comm, Nat.add_mul_div_right _ _ hP, Nat.div_eq_of_lt hc, Nat.zero_add]
    have hmod : (r % v.length * prodLen V + cmIx V (r / v.length)) % prodLen V =
        cmIx V (r / v.length) := by
      rw [Nat.add_comm, Nat.add_mul_mod_self_right, Nat.mod_eq_of_lt hc]
    rw [hdiv, hmod, ih (r / v.length) h2]

lemma cmIx_inj {α : Type} (V : List (List α)) (r s : ℕ) (hr : r < prodLen V)
    (hs : s < prodLen V) (h : cmIx V r = cmIx V s) : r = s := by
  induction V generalizing r s with
  | nil =>
    have h1 : prodLen ([] : List (List α)) = 1 := rfl
    omega
  | cons v V ih =>
    rw [prodLen_cons] at hr hs
    have hP : 0 < prodLen V := by
      rcases Nat.eq_zero_or_pos (prodLen V) with h0 | h0
      · rw [h0, Nat.mul_zero] at hr
        omega
      · exact h0
    have hdr : r / v.length < prodLen V := Nat.div_lt_of_lt_mul hr
    have hds : s / v.length < prodLen V := Nat.div_lt_of_lt_mul hs
    have hcr : cmIx V (r / v.length) < prodLen V := cmIx_lt V _ hdr
    have hcs : cmIx V (s / v.length) < prodLen V := cmIx_lt V _ hds
    have h' : r % v.length * prodLen V + cmIx V (r / v.length) =
        s % v.length * prodLen V + cmIx V (s / v.length) := h
    have e1 : ∀ m c : ℕ, c < prodLen V →
        (m * prodLen V + c) / prodLen V = m := by
      intro m c hc
      rw [Nat.add_comm, Nat.add_mul_div_right _ _ hP, Nat.div_eq_of_lt hc, Nat.zero_add]
    have e2 : ∀ m c : ℕ, c < prodLen V →
        (m * prodLen V + c) % prodLen V = c := by
      intro m c hc
      rw [Nat.add_comm, Nat.add_mul_mod_self_right, Nat.mod_eq_of_lt hc]
    have hm : r % v.length = s % v.length := by
      have hq := congrArg (· / prodLen V) h'
      simp only at hq
      rw [e1 _ _ hcr, e1 _ _ hcs] at hq
      exact hq
    have hc : cmIx V (r / v.length) = cmIx V (s / v.length) := by
      have hq := congrArg (· % prodLen V) h'
      simp only at hq
      rw [e2 _ _ hcr, e2 _ _ hcs] at hq
      exact hq
    have hd : r / v.length = s / v.length := ih _ _ hdr hds hc
    have h1 : r = v.length * (r / v.length) + r % v.length :=
      (Nat.div_add_mod r v.length).symm
    have h2 : s = v.length * (s / v.length) + s % v.length :=
      (Nat.div_add_mod s v.length).symm
    rw [h1, h2, hd, hm]

lemma perm_map_range (n : ℕ) (f : ℕ → ℕ) (hlt : ∀ r, r < n → f r < n)
    (hinj : ∀ r, r < n → ∀ s, s < n → f r = f s → r = s) :
    ((List.range n).map f).Perm (List.range n) := by
  have hnd : ((List.range n).map f).Nodup :=
    List.Nodup.map_on
      (fun x hx y hy hxy => hinj x (List.mem_range.1 hx) y (List.mem_range.1 hy) hxy)
      (List.nodup_range n)
  have hsub : ((List.range n).map f) ⊆ List.range n := by
    intro b hb
    rcases List.mem_map.1 hb with ⟨a, ha, rfl⟩
    exact List.mem_range.2 (hlt a (List.mem_range.1 ha))
  have hsp : ((List.range n).map f).Subperm (List.range n) := hnd.subperm hsub
  exact hsp.perm_of_length_le (by simp)

lemma cartCM_row {α : Type} [LinearOrder α] (V : List (List α))
    (hs : ∀ v ∈ V, List.Sorted (· ≤ ·) v) (r : ℕ) (hr : r < prodLen V) (d : α) :
    rowAt ((List.range V.length).map (colOf V)) r = decCM d V r := by
  have hlen : ∀ c ∈ (List.range V.length).map (colOf V), r < c.length := by
    intro c hc
    rcases List.mem_map.1 hc with ⟨i, hi, rfl⟩
    rw [colOf_length V i (List.mem_range.1 hi)]
    exact hr
  rw [rowAt_eq_map _ r d hlen, List.map_map]
  rw [← map_entry_eq_decCM V r d]
  apply List.map_congr_left
  intro i hi
  have hiV : i < V.length := List.mem_range.1 hi
  have hmem : V.getD i [] ∈ V := by
    rw [List.getD_eq_getElem V [] hiV]
    exact List.getElem_mem hiV
  simp only [Function.comp_apply]
  exact colOf_getD V i hiV (hs _ hmem) r hr d

lemma cartesian_product_perm {α : Type} [LinearOrder α] (V : List (List α))
    (hs : ∀ v ∈ V, List.Sorted (· ≤ ·) v) :
    (cartesian_product V false).Perm (cartesian_product V true) := by
  have hF : cartesian_product V false =
      (List.range (prodLen V)).map (rowAt ((List.range V.length).map (colOf V))) := rfl
  have hT : cartesian_product V true = cartRM V := rfl
  rw [hF, hT]
  rcases V with _ | ⟨v, V'⟩
  · exact List.Perm.refl _
  · rcases Nat.eq_zero_or_pos (prodLen (v :: V')) with hn | hn
    · rw [hn]
      have hlen : (cartRM (v :: V')).length = 0 := by rw [cartRM_length, hn]
      rw [List.length_eq_zero.1 hlen]
      exact List.Perm.refl _
    · have hv0 : 0 < v.length := by
        rw [prodLen_cons] at hn
        rcases Nat.eq_zero_or_pos v.length with h | h
        · rw [h, Nat.zero_mul] at hn
          omega
        · exact h
      obtain ⟨d, hd⟩ := List.exists_mem_of_ne_nil v (List.length_pos.1 hv0)
      have h1 : ∀ r ∈ List.range (prodLen (v :: V')),
          rowAt ((List.range (v :: V').length).map (colOf (v :: V'))) r =
          (cartRM (v :: V')).getD (cmIx (v :: V') r) [] := by
        intro r hr
        have hrlt : r < prodLen (v :: V') := List.mem_range.1 hr
        rw [cartCM_row (v :: V') hs r hrlt d]
        rw [← decRM_cmIx d (v :: V') r hrlt]
        rw [cartRM_getD (v :: V') (cmIx (v :: V') r) (cmIx_lt _ _ hrlt) d]
      rw [List.map_congr_left h1]
      have h2 : (List.range (prodLen (v :: V'))).map
          (fun r => (cartRM (v :: V')).getD (cmIx (v :: V') r) []) =
          ((List.range (prodLen (v :: V'))).map (cmIx (v :: V'))).map
            (fun t => (cartRM (v :: V')).getD t []) := by
        rw [List.map_map]
        rfl
      rw [h2]
      have h3 : ((List.range (prodLen (v :: V'))).map (cmIx (v :: V'))).Perm
          (List.range (prodLen (v :: V'))) :=
        perm_map_range _ _ (fun r hr => cmIx_lt _ _ hr)
          (fun r hr s hsr h => cmIx_inj _ _ _ hr hsr h)
      have h4 := h3.map (fun t => (cartRM (v :: V')).getD t [])
      have h5 : (List.range (prodLen (v :: V'))).map
          (fun t => (cartRM (v :: V')).getD t []) = cartRM (v :: V') := by
        have hl := cartRM_length (v :: V')
        rw [← hl]
        exact getD_map_range _ []
      rw [h5] at h4
      exact h4

lemma countP_flatMap {α β : Type} (l : List α) (f : α → List β) (p : β → Bool) :
    (l.flatMap f).countP p = (l.map fun a => (f a).countP p).sum := by
  induction l with
  | nil => rfl
  | cons a l ih =>
    rw [show (a :: l).flatMap f = f a ++ l.flatMap f from rfl]
    rw [List.countP_append, ih, List.map_cons, List.sum_cons]

lemma countP_cons_map {α : Type} [DecidableEq α] (a a₀ : α) (s₀ : List α)
    (L : List (List α)) :
    ((L.map (a :: ·)).countP fun t => decide (t = a₀ :: s₀)) =
      if a = a₀ then L.countP (fun t => decide (t = s₀)) else 0 := by
  rw [List.countP_map]
  by_cases h : a = a₀
  · subst h
    rw [if_pos rfl]
    apply List.countP_congr
    intro s _
    simp
  · rw [if_neg h]
    rw [List.countP_eq_zero]
    intro s _
    simp [h]

lemma sum_map_ite {α : Type} [DecidableEq α] (v : List α) (a₀ : α) (c : ℕ) :
    (v.map fun a => if a = a₀ then c else 0).sum = v.count a₀ * c := by
  induction v with
  | nil => simp
  | cons a v ih =>
    rw [List.map_cons, List.sum_cons, ih]
    by_cases h : a = a₀
    · subst h
      rw [if_pos rfl]
      have hcnt : (a :: v).count a = v.count a + 1 := by
        simp [List.count_cons]
      rw [hcnt, Nat.add_mul, Nat.one_mul, Nat.add_comm]
    · rw [if_neg h]
      have h' : ¬ a₀ = a := fun hh => h hh.symm
      have hcnt : (a :: v).count a₀ = v.count a₀ := by
        simp [List.count_cons, h']
      rw [hcnt, Nat.zero_add]

lemma countP_cartRM {α : Type} [DecidableEq α] (V : List (List α)) (s : List α)
    (hmem : List.Forall₂ (fun v a => a ∈ v) V s) :
    (∀ v ∈ V, v.Nodup) → ((cartRM V).countP fun t => decide (t = s)) = 1 := by
  induction hmem with
  | nil =>
    intro _
    rfl
  | cons ha hm ih =>
    rename_i v a V' s'
    intro hnd
    show ((v.flatMap fun b => (cartRM V').map (b :: ·)).countP
      fun t => decide (t = a :: s')) = 1
    rw [countP_flatMap]
    have hc : ((cartRM V').countP fun t => decide (t = s')) = 1 :=
      ih (fun u hu => hnd u (List.mem_cons_of_mem _ hu))
    calc (v.map fun b =>
          ((cartRM V').map (b :: ·)).countP fun t => decide (t = a :: s')).sum
        = (v.map fun b => if b = a then 1 else 0).sum := by
          apply congrArg
          apply List.map_congr_left
          intro b _
          rw [countP_cons_map b a s' (cartRM V'), hc]
      _ = v.count a * 1 := sum_map_ite v a 1
      _ = 1 := by
          rw [Nat.mul_one]
          exact List.count_eq_one_of_mem (hnd v (List.mem_cons_self _ _)) ha

lemma count_rows_eq_countP {α : Type} [DecidableEq α] (L : List (List α))
    (s : List α) : L.count s = L.countP fun t => decide (t = s) := by
  show L.countP (· == s) = L.countP fun t => decide (t = s)
  apply List.countP_congr
  intro t _
  by_cases ht : t = s
  · subst ht
    simp
  · simp [ht]

/-- C4: For strictly increasing per-dimension grids, `cartesian_product` with
`row_major=False` returns a permutation of the rows of `row_major=True`; in both modes
the number of rows is the product of the grid sizes and every combination of one value
per dimension appears in exactly one row. -/
theorem claim_C4 {α : Type} [LinearOrder α] (V : List (List α))
    (hs : ∀ v ∈ V, List.Sorted (· < ·) v) :
    (cartesian_product V false).Perm (cartesian_product V true) ∧
    (cartesian_product V true).length = (V.map List.length).prod ∧
    (cartesian_product V false).length = (V.map List.length).prod ∧
    ∀ s : List α, List.Forall₂ (fun v a => a ∈ v) V s →
      (cartesian_product V true).count s = 1 ∧
      (cartesian_product V false).count s = 1 := by
  have hle : ∀ v ∈ V, List.Sorted (· ≤ ·) v :=
    fun v hv => List.Pairwise.imp le_of_lt (hs v hv)
  have hnd : ∀ v ∈ V, v.Nodup :=
    fun v hv => List.Pairwise.imp ne_of_lt (hs v hv)
  have hperm := cartesian_product_perm V hle
  refine ⟨hperm, ?_, ?_, ?_⟩
  · show (cartRM V).length = (V.map List.length).prod
    exact cartRM_length V
  · show ((List.range (prodLen V)).map
      (rowAt ((List.range V.length).map (colOf V)))).length = (V.map List.length).prod
    rw [List.length_map, List.length_range]
    rfl
  · intro s hmem
    have hRM : (cartesian_product V true).count s = 1 := by
      rw [count_rows_eq_countP]
      exact countP_cartRM V s hmem hnd
    refine ⟨hRM, ?_⟩
    rw [count_rows_eq_countP, hperm.countP_eq, ← count_rows_eq_countP]
    exact hRM

/-- Witness for C4 at the grids `[0, 1]` and `[5, 6, 7]`. -/
theorem claim_C4_witness :
    (∀ v ∈ ([[0, 1], [5, 6, 7]] : List (List ℕ)), List.Sorted (· < ·) v) ∧
    ((cartesian_product ([[0, 1], [5, 6, 7]] : List (List ℕ)) false).Perm
        (cartesian_product ([[0, 1], [5, 6, 7]] : List (List ℕ)) true) ∧
      (cartesian_product ([[0, 1], [5, 6, 7]] : List (List ℕ)) true).length =
        (([[0, 1], [5, 6, 7]] : List (List ℕ)).map List.length).prod ∧
      (cartesian_product ([[0, 1], [5, 6, 7]] : List (List ℕ)) false).length =
        (([[0, 1], [5, 6, 7]] : List (List ℕ)).map List.length).prod ∧
      ∀ s : List ℕ,
        List.Forall₂ (fun v a => a ∈ v) ([[0, 1], [5, 6, 7]] : List (List ℕ)) s →
        (cartesian_product ([[0, 1], [5, 6, 7]] : List (List ℕ)) true).count s = 1 ∧
        (cartesian_product ([[0, 1], [5, 6, 7]] : List (List ℕ)) false).count s = 1) :=
  ⟨by decide, claim_C4 ([[0, 1], [5, 6, 7]] : List (List ℕ)) (by decide)⟩

end Approximation
